import Mathlib

/-!
Verification of the EventLedger log-and-subscription engine.

This file gives a shallow embedding, in Lean 4, of the core of the
EventLedger repository (Rust, `src/lambdas/...`) and proves or refutes the
frozen specification claims about it.

Modelling conventions:
* Machine integers (`u32`, `u64`) are modelled as `Nat`; wrap-around is made
  explicit with `% 2^32` where the Rust code can overflow (SHA-256 internals).
* The backing key-value store (DynamoDB) is external to the repository; its
  primitives (get/put/conditional-put/atomic-add/range-query) are modelled as
  pure state transformers on an explicit table state, following the store
  contract stated in the specification (rows addressed by `(PK, SK)` strings,
  range query in lexicographic SK order).
* Fallible Rust code returning `Result` is modelled with `Except` /
  explicit outcome types; a Rust `panic!` / failed `assert!` / division by
  zero is modelled as a distinguished `panic` outcome.
* `async` calls are modelled as ordinary sequential state passing (each
  lambda invocation is a single sequential computation).
-/

namespace EventLedger

/-! ## SHA-256 (model of the `sha2` crate used by `partitioner.rs`)

A direct transcription of FIPS 180-4, on lists of bytes (`Nat`s `< 256`),
all 32-bit words represented as `Nat` reduced mod `2^32`. -/

/-- Reduce a natural number to a 32-bit word. -/
def w32 (n : Nat) : Nat := n % 4294967296

/-- Right-rotation of a 32-bit word by `k` bits. -/
def rotr (k x : Nat) : Nat := w32 (x / 2 ^ k + x % 2 ^ k * 2 ^ (32 - k))

/-- Logical right shift of a 32-bit word by `k` bits. -/
def shr (k x : Nat) : Nat := x / 2 ^ k

/-- Bitwise complement within 32 bits (valid for `x < 2^32`). -/
def notW (x : Nat) : Nat := 4294967295 - x

/-- SHA-256 `Ch` function. -/
def shaCh (x y z : Nat) : Nat := (x &&& y) ^^^ (notW x &&& z)

/-- SHA-256 `Maj` function. -/
def shaMaj (x y z : Nat) : Nat := (x &&& y) ^^^ (x &&& z) ^^^ (y &&& z)

/-- SHA-256 `Σ₀`. -/
def bigSigma0 (x : Nat) : Nat := rotr 2 x ^^^ rotr 13 x ^^^ rotr 22 x

/-- SHA-256 `Σ₁`. -/
def bigSigma1 (x : Nat) : Nat := rotr 6 x ^^^ rotr 11 x ^^^ rotr 25 x

/-- SHA-256 `σ₀`. -/
def smallSigma0 (x : Nat) : Nat := rotr 7 x ^^^ rotr 18 x ^^^ shr 3 x

/-- SHA-256 `σ₁`. -/
def smallSigma1 (x : Nat) : Nat := rotr 17 x ^^^ rotr 19 x ^^^ shr 10 x

/-- The 64 SHA-256 round constants. -/
def K256 : List Nat :=
  [1116352408, 1899447441, 3049323471, 3921009573, 961987163, 1508970993,
   2453635748, 2870763221, 3624381080, 310598401, 607225278, 1426881987,
   1925078388, 2162078206, 2614888103, 3248222580, 3835390401, 4022224774,
   264347078, 604807628, 770255983, 1249150122, 1555081692, 1996064986,
   2554220882, 2821834349, 2952996808, 3210313671, 3336571891, 3584528711,
   113926993, 338241895, 666307205, 773529912, 1294757372, 1396182291,
   1695183700, 1986661051, 2177026350, 2456956037, 2730485921, 2820302411,
   3259730800, 3345764771, 3516065817, 3600352804, 4094571909, 275423344,
   430227734, 506948616, 659060556, 883997877, 958139571, 1322822218,
   1537002063, 1747873779, 1955562222, 2024104815, 2227730452, 2361852424,
   2428436474, 2756734187, 3204031479, 3329325298]

/-- The working state of the SHA-256 compression function. -/
structure ShaState where
  a : Nat
  b : Nat
  c : Nat
  d : Nat
  e : Nat
  f : Nat
  g : Nat
  h : Nat
deriving Repr, DecidableEq

/-- The SHA-256 initial hash value. -/
def shaH0 : ShaState :=
  ⟨1779033703, 3144134277, 1013904242, 2773480762,
   1359893119, 2600822924, 528734635, 1541459225⟩

/-- The eight bytes of `n` in big-endian order (SHA-256 length field). -/
def be64 (n : Nat) : List Nat :=
  [n / 2 ^ 56 % 256, n / 2 ^ 48 % 256, n / 2 ^ 40 % 256, n / 2 ^ 32 % 256,
   n / 2 ^ 24 % 256, n / 2 ^ 16 % 256, n / 2 ^ 8 % 256, n % 256]

/-- The four bytes of a 32-bit word in big-endian order. -/
def be32 (n : Nat) : List Nat :=
  [n / 2 ^ 24 % 256, n / 2 ^ 16 % 256, n / 2 ^ 8 % 256, n % 256]

/-- SHA-256 message padding: a `0x80` byte, zeros to 56 mod 64, then the
bit length as a 64-bit big-endian integer. -/
def padMessage (msg : List Nat) : List Nat :=
  msg ++ 0x80 :: List.replicate ((119 - msg.length % 64) % 64) 0
      ++ be64 (8 * msg.length)

/-- Block-splitting loop; the fuel only bounds the recursion (each step
consumes 64 bytes of a non-empty list) and is initialised to the input
length, which always suffices. -/
def toBlocksLoop : Nat → List Nat → List (List Nat)
  | 0, _ => []
  | fuel + 1, l => if l.isEmpty then [] else l.take 64 :: toBlocksLoop fuel (l.drop 64)

/-- Split a padded message into 64-byte blocks. -/
def toBlocks (l : List Nat) : List (List Nat) := toBlocksLoop l.length l

/-- Group a block's bytes into big-endian 32-bit words. -/
def wordsOf : List Nat → List Nat
  | b0 :: b1 :: b2 :: b3 :: rest =>
      (b0 * 16777216 + b1 * 65536 + b2 * 256 + b3) :: wordsOf rest
  | _ => []

/-- Message-schedule extension; `rws` is the schedule so far, most recent
word first, producing `fuel` additional words. -/
def extendLoop : Nat → List Nat → List Nat
  | 0, rws => rws
  | fuel + 1, rws =>
      extendLoop fuel
        (w32 (smallSigma1 (rws.getD 1 0) + rws.getD 6 0
              + smallSigma0 (rws.getD 14 0) + rws.getD 15 0) :: rws)

/-- The 64-entry message schedule of a block. -/
def schedule (block : List Nat) : List Nat :=
  (extendLoop 48 (wordsOf block).reverse).reverse

/-- One round of the SHA-256 compression function. -/
def compressWord (st : ShaState) (kw : Nat × Nat) : ShaState :=
  let t1 := w32 (st.h + bigSigma1 st.e + shaCh st.e st.f st.g + kw.1 + kw.2)
  let t2 := w32 (bigSigma0 st.a + shaMaj st.a st.b st.c)
  ⟨w32 (t1 + t2), st.a, st.b, st.c, w32 (st.d + t1), st.e, st.f, st.g⟩

/-- Compress one 64-byte block into the running hash state. -/
def compressBlock (H : ShaState) (block : List Nat) : ShaState :=
  let st := (K256.zip (schedule block)).foldl compressWord H
  ⟨w32 (H.a + st.a), w32 (H.b + st.b), w32 (H.c + st.c), w32 (H.d + st.d),
   w32 (H.e + st.e), w32 (H.f + st.f), w32 (H.g + st.g), w32 (H.h + st.h)⟩

/-- SHA-256 digest of a byte list, as its 32 digest bytes. -/
def sha256 (msg : List Nat) : List Nat :=
  let fin := (toBlocks (padMessage msg)).foldl compressBlock shaH0
  be32 fin.a ++ be32 fin.b ++ be32 fin.c ++ be32 fin.d
    ++ be32 fin.e ++ be32 fin.f ++ be32 fin.g ++ be32 fin.h

/-! ## UTF-8 (model of Rust `str::as_bytes`) -/

/-- UTF-8 encoding of a single scalar value. -/
def utf8Char (c : Char) : List Nat :=
  let n := c.toNat
  if n < 128 then [n]
  else if n < 2048 then [192 + n / 64, 128 + n % 64]
  else if n < 65536 then [224 + n / 4096, 128 + n / 64 % 64, 128 + n % 64]
  else [240 + n / 262144, 128 + n / 4096 % 64, 128 + n / 64 % 64, 128 + n % 64]

/-- UTF-8 bytes of a string (model of `key.as_bytes()`). -/
def utf8Bytes (s : String) : List Nat :=
  (s.data.map utf8Char).flatten

/-! ## Partitioner (`src/lambdas/shared/src/partitioner.rs`) -/

/-- Partitioner maps keys to partition numbers
(struct `Partitioner { partition_count: u32 }`). -/
structure Partitioner where
  partition_count : Nat
deriving Repr, DecidableEq

/-- Model of `Partitioner::new`: `assert!(partition_count > 0)` panics on 0,
modelled as `none`. -/
def Partitioner.new (partition_count : Nat) : Option Partitioner :=
  if 0 < partition_count then some ⟨partition_count⟩ else none

/-- First four digest bytes interpreted as a big-endian `u32`
(model of `u32::from_be_bytes([hash[0], hash[1], hash[2], hash[3]])`). -/
def u32FromBe4 : List Nat → Nat
  | b0 :: b1 :: b2 :: b3 :: _ => b0 * 16777216 + b1 * 65536 + b2 * 256 + b3
  | _ => 0

/-- Model of `Partitioner::partition`: SHA-256 the UTF-8 bytes of the key,
take the first 4 bytes big-endian as a `u32`, reduce mod `partition_count`. -/
def Partitioner.partition (p : Partitioner) (key : String) : Nat :=
  u32FromBe4 (sha256 (utf8Bytes key)) % p.partition_count

/-! ## Decimal formatting (models of `u64::to_string` and `format!("SEQ#{:020}")`) -/

/-- Digit-extraction loop; the fuel only bounds the recursion (each step
divides by 10) and is initialised to `n` itself, which always suffices. -/
def toDigitsRevLoop : Nat → Nat → List Nat
  | 0, n => [n]
  | fuel + 1, n => if n < 10 then [n] else n % 10 :: toDigitsRevLoop fuel (n / 10)

/-- Decimal digits of `n`, least significant first; never empty. -/
def toDigitsRev (n : Nat) : List Nat := toDigitsRevLoop n n

theorem toDigitsRevLoop_fuel (fuel1 : Nat) :
    ∀ fuel2 n, n ≤ fuel1 → n ≤ fuel2 →
      toDigitsRevLoop fuel1 n = toDigitsRevLoop fuel2 n := by
  induction fuel1 with
  | zero =>
      intro fuel2 n h1 _
      have : n = 0 := by omega
      subst this
      cases fuel2 with
      | zero => rfl
      | succ f => simp [toDigitsRevLoop]
  | succ f1 ih =>
      intro fuel2 n h1 h2
      cases fuel2 with
      | zero =>
          have : n = 0 := by omega
          subst this
          simp [toDigitsRevLoop]
      | succ f2 =>
          show (if n < 10 then [n] else n % 10 :: toDigitsRevLoop f1 (n / 10))
            = (if n < 10 then [n] else n % 10 :: toDigitsRevLoop f2 (n / 10))
          by_cases h : n < 10
          · rw [if_pos h, if_pos h]
          · rw [if_neg h, if_neg h,
              ih f2 (n / 10) (by omega) (by omega)]

/-- The recurrence satisfied by `toDigitsRev`. -/
theorem toDigitsRev_eq (n : Nat) :
    toDigitsRev n = if n < 10 then [n] else n % 10 :: toDigitsRev (n / 10) := by
  unfold toDigitsRev
  by_cases h : n < 10
  · rw [if_pos h]
    cases hn : n with
    | zero => rfl
    | succ m => simp [toDigitsRevLoop, h, hn.symm ▸ h]
  · rw [if_neg h]
    obtain ⟨m, hm⟩ : ∃ m, n = m + 1 := ⟨n - 1, by omega⟩
    subst hm
    show (if m + 1 < 10 then [m + 1]
          else (m + 1) % 10 :: toDigitsRevLoop m ((m + 1) / 10)) = _
    rw [if_neg h]
    rw [toDigitsRevLoop_fuel m ((m + 1) / 10) ((m + 1) / 10) (by omega) (by omega)]

/-- Decimal digits of `n`, most significant first. -/
def digitsOf (n : Nat) : List Nat := (toDigitsRev n).reverse

/-- Value of a most-significant-first digit list. -/
def valOfDigits (ds : List Nat) : Nat := ds.foldl (fun a d => a * 10 + d) 0

theorem toDigitsRev_ne_nil (n : Nat) : toDigitsRev n ≠ [] := by
  rw [toDigitsRev_eq]
  split <;> simp

theorem toDigitsRev_lt_ten (n : Nat) : ∀ d ∈ toDigitsRev n, d < 10 := by
  induction n using Nat.strong_induction_on with
  | _ n ih =>
      rw [toDigitsRev_eq]
      split
      · rename_i h
        intro d hd
        simp at hd
        omega
      · rename_i h
        intro d hd
        rcases List.mem_cons.mp hd with rfl | hd'
        · omega
        · exact ih (n / 10) (Nat.div_lt_self (by omega) (by omega)) d hd' 

theorem digitsOf_lt_ten (n : Nat) : ∀ d ∈ digitsOf n, d < 10 := by
  intro d hd
  exact toDigitsRev_lt_ten n d (List.mem_reverse.mp hd)

theorem foldl_digits_acc (a : Nat) (ds : List Nat) :
    ds.foldl (fun a d => a * 10 + d) a = a * 10 ^ ds.length + valOfDigits ds := by
  induction ds generalizing a with
  | nil => simp [valOfDigits]
  | cons d ds ih =>
      show (ds.foldl _ (a * 10 + d)) = _
      rw [ih (a * 10 + d)]
      have : valOfDigits (d :: ds) = d * 10 ^ ds.length + valOfDigits ds := by
        show ds.foldl _ (0 * 10 + d) = _
        rw [ih (0 * 10 + d)]; ring_nf
      rw [this]
      simp only [List.length_cons, pow_succ]
      ring

theorem valOfDigits_append (xs ys : List Nat) :
    valOfDigits (xs ++ ys) = valOfDigits xs * 10 ^ ys.length + valOfDigits ys := by
  unfold valOfDigits
  rw [List.foldl_append, foldl_digits_acc]
  rfl

theorem valOfDigits_digitsOf (n : Nat) : valOfDigits (digitsOf n) = n := by
  induction n using Nat.strong_induction_on with
  | _ n ih =>
      unfold digitsOf
      rw [toDigitsRev_eq]
      split
      · rename_i h
        simp [valOfDigits]
      · rename_i h
        rw [List.reverse_cons, valOfDigits_append]
        have := ih (n / 10) (Nat.div_lt_self (by omega) (by omega))
        unfold digitsOf at this
        rw [this]
        simp [valOfDigits]
        omega

theorem valOfDigits_lt (ds : List Nat) (h : ∀ d ∈ ds, d < 10) :
    valOfDigits ds < 10 ^ ds.length := by
  induction ds with
  | nil => simp [valOfDigits]
  | cons d ds ih =>
      have hval : valOfDigits (d :: ds) = d * 10 ^ ds.length + valOfDigits ds := by
        have := valOfDigits_append [d] ds
        simpa [valOfDigits] using this
      have hd : d < 10 := h d (List.mem_cons_self d ds)
      have hds := ih (fun e he => h e (List.mem_cons_of_mem d he))
      rw [hval, List.length_cons, pow_succ]
      calc d * 10 ^ ds.length + valOfDigits ds
          < d * 10 ^ ds.length + 10 ^ ds.length := by omega
        _ = (d + 1) * 10 ^ ds.length := by ring
        _ ≤ 10 ^ ds.length * 10 := by
            rw [Nat.mul_comm (10 ^ ds.length) 10]
            exact Nat.mul_le_mul_right _ (by omega)

theorem length_toDigitsRev_le (n k : Nat) (hk : 0 < k) (h : n < 10 ^ k) :
    (toDigitsRev n).length ≤ k := by
  induction n using Nat.strong_induction_on generalizing k with
  | _ n ih =>
      rw [toDigitsRev_eq]
      split
      · rename_i hn
        simp
        omega
      · rename_i hn
        rw [List.length_cons]
        have hk2 : 2 ≤ k := by
          by_contra hlt
          have : k = 1 := by omega
          subst this
          simp at h
          omega
        have hdiv : n / 10 < 10 ^ (k - 1) := by
          have h10 : (10 : Nat) ^ k = 10 ^ (k - 1) * 10 := by
            conv_lhs => rw [show k = (k - 1) + 1 by omega]
            rw [pow_succ]
          rw [h10] at h
          exact Nat.div_lt_of_lt_mul (by omega)
        have := ih (n / 10) (Nat.div_lt_self (by omega) (by omega)) (k - 1)
          (by omega) hdiv
        omega

/-- Zero-padded 20-digit decimal representation
(model of the digits of `format!("{:020}", n)`). -/
def padLeft20 (n : Nat) : List Nat :=
  List.replicate (20 - (digitsOf n).length) 0 ++ digitsOf n

theorem valOfDigits_replicate_zero (k : Nat) (ys : List Nat) :
    valOfDigits (List.replicate k 0 ++ ys) = valOfDigits ys := by
  rw [valOfDigits_append]
  have : valOfDigits (List.replicate k 0) = 0 := by
    induction k with
    | zero => simp [valOfDigits]
    | succ k ih =>
        rw [List.replicate_succ]
        show List.foldl (fun a d => a * 10 + d) (0 * 10 + 0) (List.replicate k 0) = 0
        exact ih
  simp [this]

theorem valOfDigits_padLeft20 (n : Nat) : valOfDigits (padLeft20 n) = n := by
  rw [padLeft20, valOfDigits_replicate_zero, valOfDigits_digitsOf]

theorem length_padLeft20 (n : Nat) (h : n < 10 ^ 20) :
    (padLeft20 n).length = 20 := by
  have hle : (digitsOf n).length ≤ 20 := by
    have := length_toDigitsRev_le n 20 (by omega) h
    simpa [digitsOf] using this
  simp [padLeft20, List.length_append, List.length_replicate]
  omega

theorem padLeft20_lt_ten (n : Nat) : ∀ d ∈ padLeft20 n, d < 10 := by
  intro d hd
  rcases List.mem_append.mp hd with hz | hm
  · have := List.eq_of_mem_replicate hz
    omega
  · exact digitsOf_lt_ten n d hm

/-! ## Lexicographic comparison of digit and character lists

DynamoDB orders sort keys by the lexicographic order of their UTF-8 bytes;
every sort key in this development is ASCII, so byte order coincides with
the order of `Char.toNat` values used here. -/

/-- Strict lexicographic order on digit lists. -/
def lexLt : List Nat → List Nat → Bool
  | [], [] => false
  | [], _ :: _ => true
  | _ :: _, [] => false
  | a :: as, b :: bs =>
      if a < b then true
      else if a = b then lexLt as bs
      else false

/-- Strict lexicographic order on character lists, by scalar value
(model of the store's byte-wise sort-key comparison, on ASCII keys). -/
def charsLt : List Char → List Char → Bool
  | [], [] => false
  | [], _ :: _ => true
  | _ :: _, [] => false
  | a :: as, b :: bs =>
      if a.toNat < b.toNat then true
      else if a.toNat = b.toNat then charsLt as bs
      else false

theorem lexLt_iff_val (ds es : List Nat) (hlen : ds.length = es.length)
    (hd : ∀ d ∈ ds, d < 10) (he : ∀ e ∈ es, e < 10) :
    lexLt ds es = true ↔ valOfDigits ds < valOfDigits es := by
  induction ds generalizing es with
  | nil =>
      cases es with
      | nil => simp [lexLt, valOfDigits]
      | cons e es => simp at hlen
  | cons a as ih =>
      cases es with
      | nil => simp at hlen
      | cons b bs =>
          have hlen' : as.length = bs.length := by simpa using hlen
          have ha : a < 10 := hd a (List.mem_cons_self a as)
          have hb : b < 10 := he b (List.mem_cons_self b bs)
          have has : ∀ d ∈ as, d < 10 := fun d h => hd d (List.mem_cons_of_mem a h)
          have hbs : ∀ e ∈ bs, e < 10 := fun e h => he e (List.mem_cons_of_mem b h)
          have hva : valOfDigits (a :: as) = a * 10 ^ as.length + valOfDigits as := by
            have := valOfDigits_append [a] as
            simpa [valOfDigits] using this
          have hvb : valOfDigits (b :: bs) = b * 10 ^ bs.length + valOfDigits bs := by
            have := valOfDigits_append [b] bs
            simpa [valOfDigits] using this
          have hvalas : valOfDigits as < 10 ^ as.length := valOfDigits_lt as has
          have hvalbs : valOfDigits bs < 10 ^ bs.length := valOfDigits_lt bs hbs
          rw [hva, hvb, ← hlen']
          show (if a < b then true else if a = b then lexLt as bs else false) = true ↔ _
          split
          · rename_i hab
            refine iff_of_true rfl ?_
            calc a * 10 ^ as.length + valOfDigits as
                < (a + 1) * 10 ^ as.length := by rw [Nat.add_mul]; omega
              _ ≤ b * 10 ^ as.length := Nat.mul_le_mul_right _ (by omega)
              _ ≤ b * 10 ^ as.length + valOfDigits bs := Nat.le_add_right _ _
          · split
            · rename_i hab
              subst hab
              rw [ih bs hlen' has hbs]
              omega
            · rename_i hab1 hab2
              have hba : b < a := by omega
              rw [← hlen'] at hvalbs
              refine iff_of_false (by simp) (not_lt.mpr (le_of_lt ?_))
              calc b * 10 ^ as.length + valOfDigits bs
                  < (b + 1) * 10 ^ as.length := by rw [Nat.add_mul]; omega
                _ ≤ a * 10 ^ as.length := Nat.mul_le_mul_right _ (by omega)
                _ ≤ a * 10 ^ as.length + valOfDigits as := Nat.le_add_right _ _

theorem charsLt_append_left (p x y : List Char) :
    charsLt (p ++ x) (p ++ y) = charsLt x y := by
  induction p with
  | nil => rfl
  | cons c p ih =>
      show (if c.toNat < c.toNat then true
            else if c.toNat = c.toNat then charsLt (p ++ x) (p ++ y)
            else false) = charsLt x y
      simp [ih]

/-- Character of a decimal digit. -/
def digitChar (d : Nat) : Char := Char.ofNat (48 + d)

theorem digitChar_toNat (d : Nat) (h : d < 10) : (digitChar d).toNat = 48 + d := by
  interval_cases d <;> decide

theorem charsLt_map_digitChar (ds es : List Nat)
    (hd : ∀ d ∈ ds, d < 10) (he : ∀ e ∈ es, e < 10) :
    charsLt (ds.map digitChar) (es.map digitChar) = lexLt ds es := by
  induction ds generalizing es with
  | nil => cases es <;> rfl
  | cons a as ih =>
      cases es with
      | nil => rfl
      | cons b bs =>
          have ha : a < 10 := hd a (List.mem_cons_self a as)
          have hb : b < 10 := he b (List.mem_cons_self b bs)
          have has : ∀ d ∈ as, d < 10 := fun d h => hd d (List.mem_cons_of_mem a h)
          have hbs : ∀ e ∈ bs, e < 10 := fun e h => he e (List.mem_cons_of_mem b h)
          show (if (digitChar a).toNat < (digitChar b).toNat then true
                else if (digitChar a).toNat = (digitChar b).toNat then
                  charsLt (as.map digitChar) (bs.map digitChar)
                else false) = _
          rw [digitChar_toNat a ha, digitChar_toNat b hb, ih bs has hbs]
          show _ = (if a < b then true else if a = b then lexLt as bs else false)
          simp only [add_lt_add_iff_left, add_right_inj]

/-- Characters of the event sort key `format!("SEQ#{:020}", seq)`. -/
def skChars (seq : Nat) : List Char :=
  "SEQ#".data ++ (padLeft20 seq).map digitChar

/-- The store's `SK > SEQ#<a:020d>` range condition, applied to the sort key
of sequence `b`, decides exactly the numeric comparison `a < b`
(for sequences below `10^20`, i.e. all `u64` values). -/
theorem skChars_lt_iff (a b : Nat) (ha : a < 10 ^ 20) (hb : b < 10 ^ 20) :
    charsLt (skChars a) (skChars b) = true ↔ a < b := by
  unfold skChars
  rw [charsLt_append_left,
      charsLt_map_digitChar _ _ (padLeft20_lt_ten a) (padLeft20_lt_ten b),
      lexLt_iff_val _ _ (by rw [length_padLeft20 a ha, length_padLeft20 b hb])
        (padLeft20_lt_ten a) (padLeft20_lt_ten b),
      valOfDigits_padLeft20, valOfDigits_padLeft20]

/-- Decimal string of a natural number (model of `u64::to_string` /
`u32::to_string` and of serde_json's integer formatting). -/
def natRepr (n : Nat) : String := ⟨(digitsOf n).map digitChar⟩

/-! ## Decimal parsing (models of `str::parse::<u64>` / `::<u32>`) -/

/-- ASCII decimal digit test. -/
def isDigitCh (c : Char) : Bool := 48 ≤ c.toNat && c.toNat ≤ 57

/-- Value of a list of ASCII digit characters, most significant first. -/
def digitsVal (cs : List Char) : Nat :=
  cs.foldl (fun a c => a * 10 + (c.toNat - 48)) 0

/-- Model of Rust `str::parse` for an unsigned integer type with exclusive
upper bound `bound`: an optional leading `+`, then one or more decimal
digits; overflow is rejected. -/
def parseUInt (bound : Nat) (s : String) : Option Nat :=
  let cs := match s.data with
    | c :: rest => if c = '+' then rest else c :: rest
    | [] => []
  if cs.isEmpty then none
  else if cs.all isDigitCh then
    if digitsVal cs < bound then some (digitsVal cs) else none
  else none

/-- Model of `str::parse::<u64>`. -/
def parseU64 (s : String) : Option Nat := parseUInt (2 ^ 64) s

/-- Model of `str::parse::<u32>`. -/
def parseU32 (s : String) : Option Nat := parseUInt (2 ^ 32) s

theorem digitsVal_map_digitChar (ds : List Nat) (h : ∀ d ∈ ds, d < 10) :
    digitsVal (ds.map digitChar) = valOfDigits ds := by
  unfold digitsVal valOfDigits
  rw [List.foldl_map]
  exact List.foldl_ext _ _ 0 fun a d hd => by rw [digitChar_toNat d (h d hd)]; omega

theorem natRepr_all_digit (n : Nat) :
    ∀ c ∈ (natRepr n).data, isDigitCh c = true := by
  intro c hc
  simp only [natRepr, List.mem_map] at hc
  obtain ⟨d, hd, rfl⟩ := hc
  have h10 := digitsOf_lt_ten n d hd
  simp [isDigitCh, digitChar_toNat d h10]
  omega

theorem natRepr_data (n : Nat) : (natRepr n).data = (digitsOf n).map digitChar := rfl

theorem natRepr_ne_nil (n : Nat) : (natRepr n).data ≠ [] := by
  rw [natRepr_data]
  simp [digitsOf, toDigitsRev_ne_nil n]

/-- Parsing the decimal representation of an in-bounds value recovers it. -/
theorem parseUInt_natRepr (bound n : Nat) (h : n < bound) :
    parseUInt bound (natRepr n) = some n := by
  unfold parseUInt
  have hne := natRepr_ne_nil n
  have hdig := natRepr_all_digit n
  have hval : digitsVal (natRepr n).data = n := by
    rw [natRepr_data, digitsVal_map_digitChar _ (digitsOf_lt_ten n),
        valOfDigits_digitsOf]
  obtain ⟨c, rest, hm⟩ : ∃ c rest, (natRepr n).data = c :: rest := by
    cases hcs : (natRepr n).data with
    | nil => exact absurd hcs hne
    | cons c rest => exact ⟨c, rest, rfl⟩
  rw [hm] at hval hdig ⊢
  have hcp : c ≠ '+' := by
    intro hc
    have := hdig c (List.mem_cons_self _ _)
    rw [hc] at this
    simp [isDigitCh] at this
  simp only [if_neg hcp]
  rw [if_neg (by simp),
      if_pos (by
        simp only [List.all_eq_true]
        exact fun x hx => hdig x hx),
      if_pos (by rw [hval]; exact h), hval]


theorem charOfNat_toNat (c : Char) : Char.ofNat c.toNat = c := by
  have hv : Nat.isValidChar c.toNat := c.valid
  rw [Char.ofNat, dif_pos hv]
  apply Char.ext
  simp only [Char.ofNatAux, Nat.toUInt32, UInt32.ofNat, Char.toNat]
  cases c with
  | mk val valid =>
      cases val with
      | mk bv =>
          cases bv with
          | ofFin f => congr 2

/-! ## JSON documents (model of `serde_json::Value`)

Numbers are modelled as integers only; this suffices for every claim under
consideration (all payloads and cursor fields in play are integers). -/

/-- A structured JSON document: the variant type over
null/bool/number/string/array/object. -/
inductive Json where
  | null
  | bool (b : Bool)
  | num (n : Int)
  | str (s : String)
  | arr (elems : List Json)
  | obj (fields : List (String × Json))
deriving Repr

/-- Decimal representation of an integer (model of serde_json's integer
formatting and `i64::to_string`). -/
def intRepr (i : Int) : String :=
  if i < 0 then "-" ++ natRepr i.natAbs else natRepr i.natAbs

/-! ## DynamoDB attribute values (model of `serde_dynamo::AttributeValue`) -/

/-- The attribute-value variants that occur in this system's rows. -/
inductive Attr where
  | S (s : String)
  | N (s : String)
  | BoolV (b : Bool)
  | M (m : List (String × Attr))
  | L (l : List Attr)
  | NullV
deriving Repr

mutual
/-- How `serde_dynamo::to_item` stores a `serde_json::Value` attribute:
objects become `M` maps, arrays become `L` lists, numbers `N`,
strings `S`, booleans `Bool`, null `Null`. -/
def attrOfJson : Json → Attr
  | .null => .NullV
  | .bool b => .BoolV b
  | .num i => .N (intRepr i)
  | .str s => .S s
  | .arr es => .L (attrOfJsonList es)
  | .obj fs => .M (attrOfJsonPairs fs)

def attrOfJsonList : List Json → List Attr
  | [] => []
  | j :: js => attrOfJson j :: attrOfJsonList js

def attrOfJsonPairs : List (String × Json) → List (String × Attr)
  | [] => []
  | (k, j) :: rest => (k, attrOfJson j) :: attrOfJsonPairs rest
end

/-! ## JSON parsing (model of `serde_json::from_str`)

A recursive-descent parser over the character list of the input, with a
fuel parameter bounding the recursion.  Deliberate model restrictions,
none of which is reachable from the claims: `\uXXXX` string escapes and
non-integer numbers (fractions, exponents) are rejected rather than
parsed. -/

/-- JSON insignificant whitespace. -/
def isWsCh (c : Char) : Bool := c == ' ' || c == '\t' || c == '\n' || c == '\r'

/-- Skip insignificant whitespace. -/
def skipWs (cs : List Char) : List Char := cs.dropWhile isWsCh

/-- Parse the remainder of a string literal (the opening quote already
consumed); returns the content and the input past the closing quote. -/
def parseStringChars : List Char → Option (List Char × List Char)
  | [] => none
  | '"' :: rest => some ([], rest)
  | '\\' :: e :: rest =>
      match parseStringChars rest with
      | none => none
      | some (s, r) =>
          if e = '"' then some ('"' :: s, r)
          else if e = '\\' then some ('\\' :: s, r)
          else if e = '/' then some ('/' :: s, r)
          else if e = 'n' then some ('\n' :: s, r)
          else if e = 't' then some ('\t' :: s, r)
          else if e = 'r' then some ('\r' :: s, r)
          else if e = 'b' then some (Char.ofNat 8 :: s, r)
          else if e = 'f' then some (Char.ofNat 12 :: s, r)
          else none
  | c :: rest =>
      match parseStringChars rest with
      | none => none
      | some (s, r) => some (c :: s, r)

/-- Parse an unsigned integer literal: maximal digit run, no leading
zeros, not followed by a fraction or exponent. -/
def parseNatPartChars (cs : List Char) : Option (Nat × List Char) :=
  let ds := cs.takeWhile isDigitCh
  let rest := cs.dropWhile isDigitCh
  if ds.isEmpty then none
  else if 1 < ds.length ∧ ds.head? = some '0' then none
  else
    match rest with
    | c :: _ => if c = '.' ∨ c = 'e' ∨ c = 'E' then none else some (digitsVal ds, rest)
    | [] => some (digitsVal ds, [])

/-- Parse a JSON number (integers only in this model). -/
def parseNumberChars (cs : List Char) : Option (Json × List Char) :=
  match cs with
  | [] => none
  | c :: rest =>
      if c = '-' then
        match parseNatPartChars rest with
        | some (nv, r) => some (.num (-(nv : Int)), r)
        | none => none
      else
        match parseNatPartChars (c :: rest) with
        | some (nv, r) => some (.num (nv : Int), r)
        | none => none

mutual
/-- Parse one JSON value. -/
def parseValue : Nat → List Char → Option (Json × List Char)
  | 0, _ => none
  | fuel + 1, cs =>
      match skipWs cs with
      | [] => none
      | c :: rest =>
          if c = '{' then
            match skipWs rest with
            | '}' :: r2 => some (.obj [], r2)
            | r => parseMembers fuel r
          else if c = '[' then
            match skipWs rest with
            | ']' :: r2 => some (.arr [], r2)
            | r => parseElems fuel r
          else if c = '"' then
            match parseStringChars rest with
            | some (s, r) => some (.str ⟨s⟩, r)
            | none => none
          else if c = 't' then
            match rest with
            | 'r' :: 'u' :: 'e' :: r => some (.bool true, r)
            | _ => none
          else if c = 'f' then
            match rest with
            | 'a' :: 'l' :: 's' :: 'e' :: r => some (.bool false, r)
            | _ => none
          else if c = 'n' then
            match rest with
            | 'u' :: 'l' :: 'l' :: r => some (.null, r)
            | _ => none
          else parseNumberChars (c :: rest)

/-- Parse the members of a non-empty JSON object (input positioned after
the opening brace and any whitespace). -/
def parseMembers : Nat → List Char → Option (Json × List Char)
  | 0, _ => none
  | fuel + 1, cs =>
      match skipWs cs with
      | '"' :: rest =>
          match parseStringChars rest with
          | none => none
          | some (k, r1) =>
              match skipWs r1 with
              | ':' :: r2 =>
                  match parseValue fuel r2 with
                  | none => none
                  | some (v, r3) =>
                      match skipWs r3 with
                      | ',' :: r4 =>
                          match parseMembers fuel r4 with
                          | some (.obj fields, r5) => some (.obj ((⟨k⟩, v) :: fields), r5)
                          | _ => none
                      | '}' :: r4 => some (.obj [(⟨k⟩, v)], r4)
                      | _ => none
              | _ => none
      | _ => none

/-- Parse the elements of a non-empty JSON array (input positioned after
the opening bracket and any whitespace). -/
def parseElems : Nat → List Char → Option (Json × List Char)
  | 0, _ => none
  | fuel + 1, cs =>
      match parseValue fuel cs with
      | none => none
      | some (v, r1) =>
          match skipWs r1 with
          | ',' :: r2 =>
              match parseElems fuel r2 with
              | some (.arr elems, r3) => some (.arr (v :: elems), r3)
              | _ => none
          | ']' :: r2 => some (.arr [v], r2)
          | _ => none
end

/-- Parse a complete JSON document from a character list; trailing content
other than whitespace is rejected, as by `serde_json::from_str`. -/
def parseJsonChars (cs : List Char) : Option Json :=
  match parseValue (cs.length + 1) cs with
  | some (v, rest) => if (skipWs rest).isEmpty then some v else none
  | none => none

/-- Model of `serde_json::from_str::<serde_json::Value>`. -/
def parseJson (s : String) : Option Json := parseJsonChars s.data


/-! ## Base64url without padding (model of the `base64` crate's
`general_purpose::URL_SAFE_NO_PAD` engine) -/

/-- Character of a 6-bit group in the base64url alphabet. -/
def b64CharOfIdx (i : Nat) : Char :=
  if i < 26 then Char.ofNat (65 + i)
  else if i < 52 then Char.ofNat (97 + (i - 26))
  else if i < 62 then Char.ofNat (48 + (i - 52))
  else if i = 62 then '-' else '_'

/-- Index of a base64url alphabet character. -/
def b64IdxOfChar (c : Char) : Option Nat :=
  let n := c.toNat
  if 65 ≤ n ∧ n ≤ 90 then some (n - 65)
  else if 97 ≤ n ∧ n ≤ 122 then some (26 + (n - 97))
  else if 48 ≤ n ∧ n ≤ 57 then some (52 + (n - 48))
  else if c = '-' then some 62
  else if c = '_' then some 63
  else none

/-- Base64url encoding without padding. -/
def b64Encode : List Nat → List Char
  | b1 :: b2 :: b3 :: rest =>
      b64CharOfIdx (b1 / 4) :: b64CharOfIdx (b1 % 4 * 16 + b2 / 16)
        :: b64CharOfIdx (b2 % 16 * 4 + b3 / 64) :: b64CharOfIdx (b3 % 64)
        :: b64Encode rest
  | [] => []
  | [b1] => [b64CharOfIdx (b1 / 4), b64CharOfIdx (b1 % 4 * 16)]
  | [b1, b2] =>
      [b64CharOfIdx (b1 / 4), b64CharOfIdx (b1 % 4 * 16 + b2 / 16),
       b64CharOfIdx (b2 % 16 * 4)]

/-- Base64url decoding without padding; trailing bits must be zero and
lengths `≡ 1 (mod 4)` are invalid, as in the `base64` crate's strict
no-pad decode. -/
def b64Decode : List Char → Option (List Nat)
  | c1 :: c2 :: c3 :: c4 :: rest =>
      match b64IdxOfChar c1, b64IdxOfChar c2, b64IdxOfChar c3,
            b64IdxOfChar c4, b64Decode rest with
      | some i1, some i2, some i3, some i4, some tail =>
          some ((i1 * 4 + i2 / 16) :: (i2 % 16 * 16 + i3 / 4)
                :: (i3 % 4 * 64 + i4) :: tail)
      | _, _, _, _, _ => none
  | [] => some []
  | [_] => none
  | [c1, c2] =>
      match b64IdxOfChar c1, b64IdxOfChar c2 with
      | some i1, some i2 =>
          if i2 % 16 = 0 then some [i1 * 4 + i2 / 16] else none
      | _, _ => none
  | [c1, c2, c3] =>
      match b64IdxOfChar c1, b64IdxOfChar c2, b64IdxOfChar c3 with
      | some i1, some i2, some i3 =>
          if i3 % 4 = 0 then some [i1 * 4 + i2 / 16, i2 % 16 * 16 + i3 / 4]
          else none
      | _, _, _ => none

theorem b64IdxOfChar_b64CharOfIdx : ∀ i < 64, b64IdxOfChar (b64CharOfIdx i) = some i := by
  decide

/-- Decoding inverts encoding on byte lists. -/
theorem b64Decode_b64Encode (bs : List Nat) (h : ∀ b ∈ bs, b < 256) :
    b64Decode (b64Encode bs) = some bs := by
  induction bs using b64Encode.induct with
  | case2 => rfl
  | case3 b1 =>
      have hb1 : b1 < 256 := h b1 (by simp)
      rw [b64Encode, b64Decode,
          b64IdxOfChar_b64CharOfIdx (b1 / 4) (by omega),
          b64IdxOfChar_b64CharOfIdx (b1 % 4 * 16) (by omega)]
      show (if b1 % 4 * 16 % 16 = 0 then some [b1 / 4 * 4 + b1 % 4 * 16 / 16]
            else none) = some [b1]
      rw [if_pos (by omega)]
      refine congrArg some (congrArg (fun x => [x]) ?_)
      omega
  | case4 b1 b2 =>
      have hb1 : b1 < 256 := h b1 (by simp)
      have hb2 : b2 < 256 := h b2 (by simp)
      rw [b64Encode, b64Decode,
          b64IdxOfChar_b64CharOfIdx (b1 / 4) (by omega),
          b64IdxOfChar_b64CharOfIdx (b1 % 4 * 16 + b2 / 16) (by omega),
          b64IdxOfChar_b64CharOfIdx (b2 % 16 * 4) (by omega)]
      show (if b2 % 16 * 4 % 4 = 0 then
              some [b1 / 4 * 4 + (b1 % 4 * 16 + b2 / 16) / 16,
                    (b1 % 4 * 16 + b2 / 16) % 16 * 16 + b2 % 16 * 4 / 4]
            else none) = some [b1, b2]
      rw [if_pos (by omega)]
      refine congrArg some ?_
      have e1 : b1 / 4 * 4 + (b1 % 4 * 16 + b2 / 16) / 16 = b1 := by omega
      have e2 : (b1 % 4 * 16 + b2 / 16) % 16 * 16 + b2 % 16 * 4 / 4 = b2 := by omega
      rw [e1, e2]
  | case1 b1 b2 b3 rest ih =>
      have hb1 : b1 < 256 := h b1 (by simp)
      have hb2 : b2 < 256 := h b2 (by simp)
      have hb3 : b3 < 256 := h b3 (by simp)
      have hrest : ∀ b ∈ rest, b < 256 := fun b hb => h b (by simp [hb])
      rw [b64Encode, b64Decode,
          b64IdxOfChar_b64CharOfIdx (b1 / 4) (by omega),
          b64IdxOfChar_b64CharOfIdx (b1 % 4 * 16 + b2 / 16) (by omega),
          b64IdxOfChar_b64CharOfIdx (b2 % 16 * 4 + b3 / 64) (by omega),
          b64IdxOfChar_b64CharOfIdx (b3 % 64) (by omega),
          ih hrest]
      refine congrArg some ?_
      have e1 : b1 / 4 * 4 + (b1 % 4 * 16 + b2 / 16) / 16 = b1 := by omega
      have e2 : (b1 % 4 * 16 + b2 / 16) % 16 * 16 + (b2 % 16 * 4 + b3 / 64) / 4 = b2 := by
        omega
      have e3 : (b2 % 16 * 4 + b3 / 64) % 4 * 64 + b3 % 64 = b3 := by omega
      rw [e1, e2, e3]

/-! ## UTF-8 decoding (model of `str::from_utf8`) -/

/-- Decoding loop over UTF-8 bytes.  The fuel argument only bounds the
recursion (each step consumes at least one byte); it is initialised to the
input length by `utf8DecodeChars`, which therefore never runs out. -/
def utf8DecodeLoop : Nat → List Nat → Option (List Char)
  | _, [] => some []
  | 0, _ :: _ => none
  | fuel + 1, b :: rest =>
      if b < 128 then
        (utf8DecodeLoop fuel rest).map (fun cs => Char.ofNat b :: cs)
      else if 194 ≤ b ∧ b ≤ 223 then
        match rest with
        | b2 :: rest2 =>
            if 128 ≤ b2 ∧ b2 ≤ 191 then
              (utf8DecodeLoop fuel rest2).map
                (fun cs => Char.ofNat ((b - 192) * 64 + (b2 - 128)) :: cs)
            else none
        | [] => none
      else if 224 ≤ b ∧ b ≤ 239 then
        match rest with
        | b2 :: b3 :: rest3 =>
            if (128 ≤ b2 ∧ b2 ≤ 191) ∧ (128 ≤ b3 ∧ b3 ≤ 191) then
              let n := (b - 224) * 4096 + (b2 - 128) * 64 + (b3 - 128)
              if 2048 ≤ n ∧ ¬(55296 ≤ n ∧ n ≤ 57343) then
                (utf8DecodeLoop fuel rest3).map (fun cs => Char.ofNat n :: cs)
              else none
            else none
        | _ => none
      else if 240 ≤ b ∧ b ≤ 244 then
        match rest with
        | b2 :: b3 :: b4 :: rest4 =>
            if (128 ≤ b2 ∧ b2 ≤ 191) ∧ (128 ≤ b3 ∧ b3 ≤ 191)
                ∧ (128 ≤ b4 ∧ b4 ≤ 191) then
              let n := (b - 240) * 262144 + (b2 - 128) * 4096
                        + (b3 - 128) * 64 + (b4 - 128)
              if 65536 ≤ n ∧ n ≤ 1114111 then
                (utf8DecodeLoop fuel rest4).map (fun cs => Char.ofNat n :: cs)
              else none
            else none
        | _ => none
      else none

/-- Decode a UTF-8 byte list to characters; malformed sequences
(truncations, bad continuation bytes, overlong forms, surrogates,
out-of-range values) are rejected, as by `str::from_utf8`. -/
def utf8DecodeChars (l : List Nat) : Option (List Char) :=
  utf8DecodeLoop l.length l

theorem utf8Char_ascii (c : Char) (h : c.toNat < 128) : utf8Char c = [c.toNat] := by
  unfold utf8Char
  rw [if_pos h]

theorem utf8Bytes_ascii (cs : List Char) (h : ∀ c ∈ cs, c.toNat < 128) :
    (cs.map utf8Char).flatten = cs.map Char.toNat := by
  induction cs with
  | nil => rfl
  | cons c cs ih =>
      have hc : c.toNat < 128 := h c (List.mem_cons_self _ _)
      have hcs : ∀ x ∈ cs, x.toNat < 128 := fun x hx => h x (List.mem_cons_of_mem _ hx)
      rw [List.map_cons, List.flatten_cons, utf8Char_ascii c hc, ih hcs,
          List.map_cons, List.singleton_append]

theorem utf8DecodeLoop_ascii_step (fuel b : Nat) (rest : List Nat) (h : b < 128) :
    utf8DecodeLoop (fuel + 1) (b :: rest)
      = (utf8DecodeLoop fuel rest).map (fun cs => Char.ofNat b :: cs) := by
  rw [utf8DecodeLoop.eq_def]
  simp [h]

/-- Decoding inverts encoding on ASCII strings. -/
theorem utf8DecodeChars_ascii (cs : List Char) (h : ∀ c ∈ cs, c.toNat < 128) :
    utf8DecodeChars (cs.map Char.toNat) = some cs := by
  induction cs with
  | nil => rfl
  | cons c cs ih =>
      have hc : c.toNat < 128 := h c (List.mem_cons_self _ _)
      have hcs : ∀ x ∈ cs, x.toNat < 128 := fun x hx => h x (List.mem_cons_of_mem _ hx)
      unfold utf8DecodeChars at ih ⊢
      rw [List.map_cons, List.length_cons, utf8DecodeLoop_ascii_step _ _ _ hc,
          ih hcs, Option.map_some', charOfNat_toNat]


/-! ## Error taxonomy (`src/lambdas/shared/src/errors.rs`) -/

/-- The EventLedger error enum (payload strings as in the Rust type). -/
inductive Error where
  | StreamNotFound (msg : String)
  | StreamAlreadyExists (msg : String)
  | SubscriptionNotFound (msg : String)
  | SubscriptionAlreadyExists (msg : String)
  | InvalidStreamId (msg : String)
  | InvalidSubscriptionId (msg : String)
  | InvalidCursor (msg : String)
  | InvalidEventKey (msg : String)
  | Validation (msg : String)
  | Database (msg : String)
  | Serialization (msg : String)
  | DynamoSerialization (msg : String)
  | Internal (msg : String)
deriving Repr, DecidableEq

/-- Model of `Error::code`. -/
def Error.code : Error → String
  | .StreamNotFound _ => "stream_not_found"
  | .StreamAlreadyExists _ => "stream_already_exists"
  | .SubscriptionNotFound _ => "subscription_not_found"
  | .SubscriptionAlreadyExists _ => "subscription_already_exists"
  | .InvalidStreamId _ => "invalid_stream_id"
  | .InvalidSubscriptionId _ => "invalid_subscription_id"
  | .InvalidCursor _ => "invalid_cursor"
  | .InvalidEventKey _ => "invalid_event_key"
  | .Validation _ => "validation_error"
  | .Database _ => "database_error"
  | .Serialization _ => "serialization_error"
  | .DynamoSerialization _ => "serialization_error"
  | .Internal _ => "internal_error"

/-- Model of `Error::status_code`. -/
def Error.status_code : Error → Nat
  | .StreamNotFound _ => 404
  | .StreamAlreadyExists _ => 409
  | .SubscriptionNotFound _ => 404
  | .SubscriptionAlreadyExists _ => 409
  | .InvalidStreamId _ => 400
  | .InvalidSubscriptionId _ => 400
  | .InvalidCursor _ => 400
  | .InvalidEventKey _ => 400
  | .Validation _ => 400
  | .Database _ => 500
  | .Serialization _ => 400
  | .DynamoSerialization _ => 500
  | .Internal _ => 500

/-! ## Domain models (`src/lambdas/shared/src/models.rs`)

`DateTime<Utc>` values are modelled as abstract clock values: `Nat` where
only their order matters (poll's timestamp sort), `String` where only the
serialized form matters (compactor row timestamps). -/

/-- Stream metadata. -/
structure Stream where
  stream_id : String
  partition_count : Nat
  retention_hours : Nat
  created_at : String
deriving Repr, DecidableEq

/-- Request to create a new stream (defaults as in `models.rs`). -/
structure CreateStreamRequest where
  stream_id : String
  partition_count : Nat := 3
  retention_hours : Nat := 168
deriving Repr, DecidableEq

/-- An event row in the log. -/
structure Event where
  stream_id : String
  partition : Nat
  sequence : Nat
  key : String
  event_type : String
  data : Json
  timestamp : Nat
deriving Repr

/-- A single event to publish. -/
structure PublishEvent where
  key : String
  event_type : String
  data : Json
deriving Repr

/-- Reference to a published event. -/
structure PublishedEvent where
  stream_id : String
  partition : Nat
  sequence : Nat
  key : String
  timestamp : Nat
deriving Repr

/-- A per-partition cursor entry. -/
structure PartitionOffset where
  partition : Nat
  offset : Nat
deriving Repr, DecidableEq

/-- Compacted state (latest per key), as written by the compactor. -/
structure CompactedEvent where
  stream_id : String
  key : String
  event_type : String
  data : Json
  sequence : Nat
  partition : Nat
  timestamp : String
deriving Repr

/-! ## Cursor encoding (`poll/src/main.rs` lines 116-119 and 146-153) -/

/-- JSON text of one `PartitionOffset`, as serde_json serializes it
(fields in declaration order, no whitespace). -/
def cursorItemJson (po : PartitionOffset) : String :=
  "\x7b\"partition\":" ++ natRepr po.partition ++ ",\"offset\":"
    ++ natRepr po.offset ++ "\x7d"

/-- Comma-separated JSON texts of a cursor's offsets. -/
def cursorItemsJson : List PartitionOffset → String
  | [] => ""
  | [po] => cursorItemJson po
  | po :: rest => cursorItemJson po ++ "," ++ cursorItemsJson rest

/-- JSON text of a `CursorState`
(model of `serde_json::to_string(&cursor_state)`). -/
def cursorJson (offs : List PartitionOffset) : String :=
  "\x7b\"offsets\":[" ++ cursorItemsJson offs ++ "]\x7d"

/-- Model of `URL_SAFE_NO_PAD.encode(cursor_json.as_bytes())`. -/
def encodeCursor (offs : List PartitionOffset) : String :=
  ⟨b64Encode (utf8Bytes (cursorJson offs))⟩

/-- Look up a field of a parsed JSON object (first occurrence). -/
def jLookup (fields : List (String × Json)) (k : String) : Option Json :=
  (fields.find? (fun f => f.1 == k)).map (fun f => f.2)

/-- Model of serde's derived `Deserialize` for `PartitionOffset`: an object
with integer fields `partition : u32` and `offset : u64`; unknown fields
are ignored, negatives and overflow are rejected. -/
def partitionOffsetOfJson : Json → Option PartitionOffset
  | .obj fields =>
      match jLookup fields "partition", jLookup fields "offset" with
      | some (.num p), some (.num o) =>
          if 0 ≤ p ∧ p < 4294967296 ∧ 0 ≤ o ∧ o < 18446744073709551616 then
            some ⟨p.toNat, o.toNat⟩
          else none
      | _, _ => none
  | _ => none

/-- Model of serde's derived `Deserialize` for `CursorState`: an object
whose `offsets` field is an array of `PartitionOffset`s. -/
def cursorStateOfJson : Json → Option (List PartitionOffset)
  | .obj fields =>
      match jLookup fields "offsets" with
      | some (.arr elems) => elems.mapM partitionOffsetOfJson
      | _ => none
  | _ => none

/-- Model of `serde_json::from_str::<CursorState>`. -/
def parseCursorState (s : String) : Option (List PartitionOffset) :=
  (parseJson s).bind cursorStateOfJson

/-! ## The store state

One logical DynamoDB table, restricted to the rows of a single stream and
a single subscription (all operations under verification address one such
pair; rows of other streams are never read or written by them).  Each
field models one `(PK, SK)` row family of the single-table layout:

* `meta`            — row `(STREAM#sid, META)`;
* `counters p`      — row `(STREAM#sid#P<p>, COUNTER)`, the `sequence` value;
* `partEvents p`    — rows `(STREAM#sid#P<p>, SEQ#<seq:020d>)` in insertion
                      order (the range query sorts by SK);
* `offsets p`       — row `(STREAM#sid#SUB#subid, OFFSET#P<p>)`, the
                      `offset` value (`committed_at` is not modelled: no
                      claim mentions it);
* `subExists`       — presence of row `(STREAM#sid, SUB#subid)`. -/
structure Table where
  meta : Option Stream
  counters : Nat → Option Nat
  partEvents : Nat → List Event
  offsets : Nat → Option Nat
  subExists : Bool

/-! ## Store operations (`src/lambdas/shared/src/dynamo.rs`) -/

/-- Model of `DynamoClient::get_stream` (`dynamo.rs` 105-120). -/
def get_stream (t : Table) (stream_id : String) : Except Error Stream :=
  match t.meta with
  | some s => .ok s
  | none => .error (.StreamNotFound stream_id)

/-- Model of `DynamoClient::create_stream` (`dynamo.rs` 51-84): a
conditional put of the META row (`attribute_not_exists(PK)`), then an
unconditional put of each partition's COUNTER row with `sequence = 0`.
No field of the request is validated. -/
def create_stream (t : Table) (req : CreateStreamRequest) (now : String) :
    Except Error (Table × Stream) :=
  let stream : Stream :=
    ⟨req.stream_id, req.partition_count, req.retention_hours, now⟩
  if t.meta.isSome then .error (.StreamAlreadyExists req.stream_id)
  else
    .ok ({ t with
            meta := some stream,
            counters := fun p =>
              if p < req.partition_count then some 0 else t.counters p },
         stream)

/-- Model of `DynamoClient::increment_sequence` (`dynamo.rs` 241-263): the
store's atomic `SET sequence = sequence + 1` returning the new value.  On a
missing counter row the update expression fails at the store and surfaces
as `Error::Database` via `map_err`. -/
def increment_sequence (t : Table) (partition : Nat) :
    Except Error (Table × Nat) :=
  match t.counters partition with
  | some v =>
      .ok ({ t with counters := fun q =>
              if q = partition then some (v + 1) else t.counters q },
           v + 1)
  | none => .error (.Database "update on missing counter row")

/-- Insertion into a list sorted by ascending event sort key. -/
def insertBySk (e : Event) : List Event → List Event
  | [] => [e]
  | x :: xs =>
      if charsLt (skChars x.sequence) (skChars e.sequence) then
        x :: insertBySk e xs
      else e :: x :: xs

/-- Event rows of a partition in ascending SK order (the order a DynamoDB
Query returns them in). -/
def sortBySk : List Event → List Event
  | [] => []
  | x :: xs => insertBySk x (sortBySk xs)

/-- Model of `DynamoClient::read_events` (`dynamo.rs` 266-299): range query
with key condition `PK = STREAM#sid#P<p> AND SK > SEQ#<from_offset:020d>`,
up to `limit` rows in ascending SK order.  The COUNTER row shares this PK
but its SK sorts below every `SEQ#` key, so the condition excludes it. -/
def read_events (t : Table) (partition from_offset limit : Nat) :
    Except Error (List Event) :=
  .ok (((sortBySk (t.partEvents partition)).filter
      (fun e => charsLt (skChars from_offset) (skChars e.sequence))).take limit)

/-- Model of `DynamoClient::get_offset` (`dynamo.rs` 414-443): a missing
OFFSET row is reported as `SubscriptionNotFound`. -/
def get_offset (t : Table) (subscription_id : String) (partition : Nat) :
    Except Error Nat :=
  match t.offsets partition with
  | some v => .ok v
  | none => .error (.SubscriptionNotFound subscription_id)

/-- Model of `DynamoClient::set_offset` (`dynamo.rs` 380-411): an
unconditional put of the OFFSET row. -/
def set_offset (t : Table) (partition offset : Nat) : Table :=
  { t with offsets := fun q => if q = partition then some offset else t.offsets q }

/-- Model of `DynamoClient::commit_offsets` (`dynamo.rs` 446-456): one
`set_offset` per cursor entry, in order.  No subscription lookup occurs. -/
def commit_offsets (t : Table) (offs : List PartitionOffset) : Table :=
  offs.foldl (fun acc po => set_offset acc po.partition po.offset) t

/-- Model of `DynamoClient::get_subscription` (`dynamo.rs` 459-474). -/
def get_subscription (t : Table) (subscription_id : String) :
    Except Error Unit :=
  if t.subExists then .ok () else .error (.SubscriptionNotFound subscription_id)


/-! ## Publish path (`dynamo.rs` 184-238 and `publish/src/main.rs` 10-69) -/

/-- Outcome of a publish invocation.  `panic` marks a Rust panic (the
failed `assert!` in `Partitioner::new`); the table is carried in the error
case because events written before a mid-batch failure remain durable. -/
inductive PubResult where
  | panic
  | err (t : Table) (e : Error)
  | ok (t : Table) (published : List PublishedEvent)

/-- The per-event loop of `DynamoClient::publish_events`: partition the
key, atomically allocate the next sequence, put the event row, record the
published reference.  `now` is the single timestamp captured before the
loop. -/
def publishLoop (t : Table) (pr : Partitioner) (stream_id : String)
    (now : Nat) (evs : List PublishEvent) (acc : List PublishedEvent) :
    PubResult :=
  match evs with
  | [] => .ok t acc.reverse
  | e :: rest =>
      let p := pr.partition e.key
      match increment_sequence t p with
      | .error er => .err t er
      | .ok (t1, seq) =>
          let row : Event :=
            ⟨stream_id, p, seq, e.key, e.event_type, e.data, now⟩
          let t2 := { t1 with partEvents := fun q =>
                        if q = p then t1.partEvents q ++ [row]
                        else t1.partEvents q }
          publishLoop t2 pr stream_id now rest
            (⟨stream_id, p, seq, e.key, now⟩ :: acc)

/-- Model of `DynamoClient::publish_events` (`dynamo.rs` 184-238). -/
def publish_events (t : Table) (stream_id : String)
    (evs : List PublishEvent) (now : Nat) : PubResult :=
  match get_stream t stream_id with
  | .error e => .err t e
  | .ok stream =>
      match Partitioner.new stream.partition_count with
      | none => .panic
      | some pr => publishLoop t pr stream_id now evs []

/-- Model of the publish lambda handler (`publish/src/main.rs` 10-69): an
empty batch is rejected with a 400 `validation_error` response before the
client is called (modelled as `Error.Validation`); otherwise
`publish_events` runs and its error is mapped by `Error::status_code`.
No per-event validation is performed. -/
def handle_publish (t : Table) (stream_id : String)
    (evs : List PublishEvent) (now : Nat) : PubResult :=
  if evs.isEmpty then .err t (.Validation "No events provided")
  else publish_events t stream_id evs now

/-! ## Poll path (`poll/src/main.rs` 53-131) -/

/-- The store calls `handle_poll` makes, abstracted so that store failures
can be injected (the pure table instantiation is `pollClientOf`). -/
structure PollClient where
  get_stream : Except Error Stream
  get_subscription : Except Error Unit
  get_offset : Nat → Except Error Nat
  read_events : Nat → Nat → Nat → Except Error (List Event)

/-- The pure-table instantiation of the poll path's store calls. -/
def pollClientOf (t : Table) (stream_id subscription_id : String) :
    PollClient where
  get_stream := get_stream t stream_id
  get_subscription := get_subscription t subscription_id
  get_offset := fun p => get_offset t subscription_id p
  read_events := fun p off lim => read_events t p off lim

/-- A successful poll response. -/
structure PollOk where
  events : List Event
  cursorOffsets : List PartitionOffset
  cursor : String
  remaining : Nat

/-- Outcome of a poll invocation; `panic` marks the division by zero in
`limit / stream.partition_count` when the stored partition count is 0. -/
inductive PollResult where
  | panic
  | err (e : Error)
  | ok (r : PollOk)

/-- Stable insertion of an event into a list sorted by timestamp. -/
def insertByTs (e : Event) : List Event → List Event
  | [] => [e]
  | x :: xs =>
      if x.timestamp ≤ e.timestamp then x :: insertByTs e xs
      else e :: x :: xs

/-- Stable sort by ascending timestamp
(model of `all_events.sort_by(|a, b| a.timestamp.cmp(&b.timestamp))`). -/
def sortByTs : List Event → List Event
  | [] => []
  | x :: xs => insertByTs x (sortByTs xs)

/-- The loop body of `handle_poll` for one partition (`poll/src/main.rs`
87-108): the committed offset is read with `.unwrap_or(0)` and the events
with `.unwrap_or_default()` — store errors on these two calls are
swallowed, not surfaced.  Returns the cursor entry (the sequence of the
last event read, or the committed offset if none) and the events read. -/
def pollPartition (client : PollClient) (per_partition_limit p : Nat) :
    PartitionOffset × List Event :=
  let offset := (client.get_offset p).toOption.getD 0
  let events :=
    (client.read_events p offset per_partition_limit).toOption.getD []
  let adv : PartitionOffset :=
    match events.getLast? with
    | some last => ⟨p, last.sequence⟩
    | none => ⟨p, offset⟩
  (adv, events)

/-- The successful-path body of `handle_poll` (`poll/src/main.rs` 80-125):
per-partition reads, timestamp sort, truncation to `limit`, cursor
encoding, `remaining` fixed at 0. -/
def pollBody (client : PollClient) (st : Stream) (limit : Nat) : PollOk :=
  let per_partition_limit := Nat.max (limit / st.partition_count) 1
  let results := (List.range st.partition_count).map
    (pollPartition client per_partition_limit)
  let offsets := results.map Prod.fst
  let all_events := (results.map Prod.snd).flatten
  ⟨(sortByTs all_events).take limit, offsets, encodeCursor offsets, 0⟩

/-- Model of `handle_poll` (`poll/src/main.rs` 53-131): surface
`get_stream` / `get_subscription` errors, then run the per-partition loop;
`limit / stream.partition_count` panics when the stored partition count
is 0. -/
def handle_poll (client : PollClient) (limit : Nat) : PollResult :=
  match client.get_stream with
  | .error e => .err e
  | .ok stream =>
      match client.get_subscription with
      | .error e => .err e
      | .ok _ =>
          if stream.partition_count = 0 then .panic
          else .ok (pollBody client stream limit)

/-! ## Commit path (`poll/src/main.rs` 133-169) -/

/-- Outcome of a commit invocation. -/
inductive CommitResult where
  | err (t : Table) (e : Error)
  | ok (t : Table) (success : Bool)

/-- Model of the cursor decoding in `handle_commit` (`poll/src/main.rs`
146-153): base64url-decode, check UTF-8, `serde_json::from_str` into
`CursorState`; each failure maps to `InvalidCursor`. -/
def decode_cursor (cursor : String) : Except Error (List PartitionOffset) :=
  match b64Decode cursor.data with
  | none => .error (.InvalidCursor "Invalid base64")
  | some bytes =>
      match utf8DecodeChars bytes with
      | none => .error (.InvalidCursor "Invalid UTF-8")
      | some cs =>
          match (parseJsonChars cs).bind cursorStateOfJson with
          | none => .error (.InvalidCursor "Invalid JSON")
          | some offs => .ok offs

/-- Model of `handle_commit` (`poll/src/main.rs` 133-169): decode the
cursor and write every offset row via `commit_offsets`.  The subscription
is never looked up, and the pure store's writes always succeed, so a
decodable cursor always yields `success = true`. -/
def handle_commit (t : Table) (cursor : String) : CommitResult :=
  match decode_cursor cursor with
  | .error e => .err t e
  | .ok offs => .ok (commit_offsets t offs) true

/-! ## Compactor (`compactor/src/main.rs`) -/

/-- A DynamoDB stream record: the event name (`INSERT`, `MODIFY`,
`REMOVE`) and the new image's attributes. -/
structure ChangeRecord where
  event_name : String
  new_image : List (String × Attr)

/-- Attribute lookup in a record image. -/
def imgGet (img : List (String × Attr)) (k : String) : Option Attr :=
  (img.find? (fun f => f.1 == k)).map (fun f => f.2)

/-- Model of `get_string` (`compactor/src/main.rs` 15-20). -/
def attrString : Option Attr → Option String
  | some (.S s) => some s
  | _ => none

/-- Model of `get_number_str` (`compactor/src/main.rs` 23-28). -/
def attrNumberStr : Option Attr → Option String
  | some (.N n) => some n
  | _ => none

/-- The fields `process_record` extracts from an event image. -/
structure ParsedRecord where
  stream_id : String
  key : String
  event_type : String
  sequence : Nat
  partition : Nat
  data : Json
  timestamp : String

/-- Model of the data-extraction step of `process_record`
(`compactor/src/main.rs` 88-97): a string attribute is parsed as JSON, a
*map attribute becomes the empty JSON object* `json!({})`, anything else
becomes `Null`. -/
def extractData (a : Option Attr) : Json :=
  match a with
  | some (.S s) => ((parseJson s).map id).getD Json.null
  | some (.M _) => Json.obj []
  | _ => Json.null

/-- Character-level prefix test (model of `str::starts_with` on ASCII
prefixes). -/
def startsWithChars : List Char → List Char → Bool
  | [], _ => true
  | _ :: _, [] => false
  | p :: ps, c :: cs => if p = c then startsWithChars ps cs else false

/-- Model of the field extraction in `process_record` (`compactor`
31-104): `None` models an early `return` (skipped record or missing
field).  The `timestamp` attribute is kept as its string; chrono's
parse-failure fallback to `Utc::now()` is represented by the `nowFallback`
argument used when the attribute is absent or not a string. -/
def parse_record (r : ChangeRecord) (nowFallback : String) :
    Option ParsedRecord :=
  if r.event_name ≠ "INSERT" ∧ r.event_name ≠ "MODIFY" then none
  else if r.new_image.isEmpty then none
  else
    let sk := (attrString (imgGet r.new_image "SK")).getD ""
    if ¬(startsWithChars "SEQ#".data sk.data) then none
    else
      match attrString (imgGet r.new_image "stream_id"),
            attrString (imgGet r.new_image "key"),
            attrString (imgGet r.new_image "event_type"),
            (attrNumberStr (imgGet r.new_image "sequence")).bind parseU64,
            (attrNumberStr (imgGet r.new_image "partition")).bind parseU32 with
      | some sid, some key, some et, some seq, some part =>
          some ⟨sid, key, et, seq, part,
                extractData (imgGet r.new_image "data"),
                (attrString (imgGet r.new_image "timestamp")).getD nowFallback⟩
      | _, _, _, _, _ => none

/-- The compacted projection: rows `(STREAM#<sid>#COMPACT, KEY#<k>)`,
addressed by `(stream_id, key)`. -/
def CompactTable := String → String → Option CompactedEvent

/-- The compacted row written for a parsed record
(`CompactedEvent` construction in `compactor/src/main.rs` 116-124). -/
def compactedOf (pr : ParsedRecord) : CompactedEvent :=
  ⟨pr.stream_id, pr.key, pr.event_type, pr.data, pr.sequence, pr.partition,
   pr.timestamp⟩

/-- Model of `DynamoClient::put_compacted` (`dynamo.rs` 481-501): an
unconditional put of the compacted row at `(stream_id, key)`. -/
def put_compacted (T : CompactTable) (c : CompactedEvent) : CompactTable :=
  fun sid k => if sid = c.stream_id ∧ k = c.key then some c else T sid k

/-- Model of `get_compacted` / `put_compacted` read-then-write in
`process_record` (`compactor/src/main.rs` 107-131): skip when an existing
row has `sequence ≥` the record's, else put the new compacted row.
Records that fail extraction are skipped (the handler logs and continues;
`Ok(())`/`Err` both leave the projection unchanged). -/
def process_record (T : CompactTable) (r : ChangeRecord)
    (nowFallback : String) : CompactTable :=
  match parse_record r nowFallback with
  | none => T
  | some pr =>
      match T pr.stream_id pr.key with
      | some existing =>
          if existing.sequence ≥ pr.sequence then T
          else put_compacted T (compactedOf pr)
      | none => put_compacted T (compactedOf pr)

/-- Model of the compactor batch handler (`compactor/src/main.rs`
142-161): records processed in order, individual failures swallowed. -/
def compactor_handler (T : CompactTable) (records : List ChangeRecord)
    (nowFallback : String) : CompactTable :=
  records.foldl (fun acc r => process_record acc r nowFallback) T

/-- The image of an event row as `publish_events` writes it and as the
change feed presents it (`dynamo.rs` 210-218 plus `serde_dynamo`
serialization of the `Event` struct). -/
def eventImage (sid : String) (p seq : Nat) (key et : String) (data : Json)
    (ts : String) : List (String × Attr) :=
  [("stream_id", .S sid),
   ("partition", .N (natRepr p)),
   ("sequence", .N (natRepr seq)),
   ("key", .S key),
   ("event_type", .S et),
   ("data", attrOfJson data),
   ("timestamp", .S ts),
   ("PK", .S ("STREAM#" ++ sid ++ "#P" ++ natRepr p)),
   ("SK", .S ⟨skChars seq⟩)]


/-! ## Helper lemmas about the store model -/

theorem mem_insertBySk (a e : Event) (l : List Event) :
    a ∈ insertBySk e l ↔ a = e ∨ a ∈ l := by
  induction l with
  | nil => simp [insertBySk]
  | cons x xs ih =>
      unfold insertBySk
      split
      · rw [List.mem_cons, ih, List.mem_cons]
        tauto
      · simp only [List.mem_cons]

theorem mem_sortBySk (a : Event) (l : List Event) :
    a ∈ sortBySk l ↔ a ∈ l := by
  induction l with
  | nil => simp [sortBySk]
  | cons x xs ih =>
      unfold sortBySk
      rw [mem_insertBySk]
      simp [ih]

theorem mem_insertByTs (a e : Event) (l : List Event) :
    a ∈ insertByTs e l ↔ a = e ∨ a ∈ l := by
  induction l with
  | nil => simp [insertByTs]
  | cons x xs ih =>
      unfold insertByTs
      split
      · rw [List.mem_cons, ih, List.mem_cons]
        tauto
      · simp only [List.mem_cons]

theorem mem_sortByTs (a : Event) (l : List Event) :
    a ∈ sortByTs l ↔ a ∈ l := by
  induction l with
  | nil => simp [sortByTs]
  | cons x xs ih =>
      unfold sortByTs
      rw [mem_insertByTs]
      simp [ih]

/-- The cursor entry that determines a partition's committed offset: the
last entry for that partition, if any (later `set_offset` writes win). -/
def lastOffsetFor (offs : List PartitionOffset) (p : Nat) : Option Nat :=
  match offs with
  | [] => none
  | po :: rest =>
      match lastOffsetFor rest p with
      | some v => some v
      | none => if p = po.partition then some po.offset else none

theorem commit_offsets_offsets (t : Table) (offs : List PartitionOffset)
    (p : Nat) :
    (commit_offsets t offs).offsets p
      = match lastOffsetFor offs p with
        | some v => some v
        | none => t.offsets p := by
  induction offs generalizing t with
  | nil => rfl
  | cons po rest ih =>
      show (commit_offsets (set_offset t po.partition po.offset) rest).offsets p = _
      rw [ih]
      cases h : lastOffsetFor rest p with
      | some v => simp [lastOffsetFor, h]
      | none =>
          simp only [lastOffsetFor, h]
          by_cases hp : p = po.partition
          · simp [set_offset, hp]
          · simp [set_offset, hp]

theorem commit_offsets_meta (t : Table) (offs : List PartitionOffset) :
    (commit_offsets t offs).meta = t.meta := by
  induction offs generalizing t with
  | nil => rfl
  | cons po rest ih => exact ih (set_offset t po.partition po.offset)

theorem commit_offsets_subExists (t : Table) (offs : List PartitionOffset) :
    (commit_offsets t offs).subExists = t.subExists := by
  induction offs generalizing t with
  | nil => rfl
  | cons po rest ih => exact ih (set_offset t po.partition po.offset)

theorem commit_offsets_partEvents (t : Table) (offs : List PartitionOffset) :
    (commit_offsets t offs).partEvents = t.partEvents := by
  induction offs generalizing t with
  | nil => rfl
  | cons po rest ih => exact ih (set_offset t po.partition po.offset)

/-! ## Claim C1 -/

/-- C1: for every key `k` and partition count `n > 0`, `partition(k, n)`
equals the first 4 bytes of SHA-256 of `k`'s UTF-8 bytes read as a
big-endian `u32`, reduced mod `n`; consequently `partition(k, n) < n`, and
any two evaluations of it agree (the function is pure). -/
theorem C1_partition_spec (k : String) (n : Nat) (hn : 0 < n) :
    ∃ pr, Partitioner.new n = some pr
      ∧ pr.partition k = u32FromBe4 (sha256 (utf8Bytes k)) % n
      ∧ pr.partition k < n
      ∧ (∀ pr', Partitioner.new n = some pr' → pr'.partition k = pr.partition k) := by
  refine ⟨⟨n⟩, ?_, rfl, Nat.mod_lt _ hn, ?_⟩
  · unfold Partitioner.new
    rw [if_pos hn]
  · intro pr' hpr'
    unfold Partitioner.new at hpr'
    rw [if_pos hn] at hpr'
    cases hpr'
    rfl

/-- Witness for C1 at `k = "order-123"`, `n = 3`. -/
theorem C1_witness :
    0 < 3 ∧
    ∃ pr, Partitioner.new 3 = some pr
      ∧ pr.partition "order-123" = u32FromBe4 (sha256 (utf8Bytes "order-123")) % 3
      ∧ pr.partition "order-123" < 3
      ∧ (∀ pr', Partitioner.new 3 = some pr' →
          pr'.partition "order-123" = pr.partition "order-123") :=
  ⟨by decide, C1_partition_spec "order-123" 3 (by decide)⟩


/-! ## Poll-path characterization lemmas -/

theorem handle_poll_ok_eq (client : PollClient) (st : Stream) (limit : Nat)
    (hs : client.get_stream = .ok st)
    (hb : client.get_subscription = .ok ())
    (hpc : st.partition_count ≠ 0) :
    handle_poll client limit = .ok (pollBody client st limit) := by
  unfold handle_poll
  simp only [hs, hb]
  rw [if_neg hpc]

theorem mem_pollBody_events (client : PollClient) (st : Stream) (limit : Nat)
    (e : Event) (he : e ∈ (pollBody client st limit).events) :
    ∃ q < st.partition_count,
      e ∈ (pollPartition client (Nat.max (limit / st.partition_count) 1) q).2 := by
  have he1 : e ∈ sortByTs ((((List.range st.partition_count).map
      (pollPartition client (Nat.max (limit / st.partition_count) 1))).map
        Prod.snd).flatten) := List.mem_of_mem_take he
  have he2 := (mem_sortByTs _ _).mp he1
  obtain ⟨l, hl, hel⟩ := List.mem_flatten.mp he2
  obtain ⟨pr, hpr, rfl⟩ := List.mem_map.mp hl
  obtain ⟨q, hq, rfl⟩ := List.mem_map.mp hpr
  exact ⟨q, List.mem_range.mp hq, hel⟩

theorem pollPartition_table (t : Table) (sid subid : String) (per q : Nat) :
    pollPartition (pollClientOf t sid subid) per q
      = (match (((sortBySk (t.partEvents q)).filter
            (fun e => charsLt (skChars ((t.offsets q).getD 0))
              (skChars e.sequence))).take per).getLast? with
         | some last => ⟨q, last.sequence⟩
         | none => ⟨q, (t.offsets q).getD 0⟩,
         ((sortBySk (t.partEvents q)).filter
            (fun e => charsLt (skChars ((t.offsets q).getD 0))
              (skChars e.sequence))).take per) := by
  unfold pollPartition pollClientOf read_events get_offset
  cases h : t.offsets q with
  | some v => simp [h, Except.toOption]
  | none => simp [h, Except.toOption]

/-! ## Claim C2 -/

/-- C2: committing a cursor whose recorded advance for partition `p` is
`A` and then immediately polling returns no event of partition `p` with
sequence `≤ A` — the range query reads strictly beyond the committed
offset. -/
theorem C2_commit_then_poll (t : Table) (sid subid : String) (st : Stream)
    (offs : List PartitionOffset) (p A limit : Nat)
    (hmeta : t.meta = some st)
    (hsub : t.subExists = true)
    (hadv : lastOffsetFor offs p = some A)
    (hA : A < 10 ^ 20)
    (hrows : ∀ q < st.partition_count, ∀ e ∈ t.partEvents q,
        e.partition = q ∧ e.sequence < 10 ^ 20) :
    ∀ r, handle_poll (pollClientOf (commit_offsets t offs) sid subid) limit
        = .ok r →
      ∀ e ∈ r.events, e.partition = p → A < e.sequence := by
  intro r hr e he hep
  set t' := commit_offsets t offs with ht'
  have hs : (pollClientOf t' sid subid).get_stream = .ok st := by
    show get_stream t' sid = .ok st
    unfold get_stream
    rw [ht', commit_offsets_meta, hmeta]
  have hb : (pollClientOf t' sid subid).get_subscription = .ok () := by
    show get_subscription t' subid = .ok ()
    unfold get_subscription
    rw [ht', commit_offsets_subExists]
    simp [hsub]
  by_cases hpc : st.partition_count = 0
  · have hpanic : handle_poll (pollClientOf t' sid subid) limit = .panic := by
      unfold handle_poll
      simp only [hs, hb]
      rw [if_pos hpc]
    rw [hpanic] at hr
    exact PollResult.noConfusion hr
  · rw [handle_poll_ok_eq _ _ _ hs hb hpc] at hr
    injection hr with hr
    subst hr
    obtain ⟨q, hq, heq⟩ := mem_pollBody_events _ _ _ _ he
    rw [pollPartition_table] at heq
    have heq2 := List.mem_of_mem_take heq
    obtain ⟨he5, hcond⟩ := List.mem_filter.mp heq2
    have hpe : t'.partEvents = t.partEvents := by
      rw [ht', commit_offsets_partEvents]
    rw [hpe] at he5
    have he6 : e ∈ t.partEvents q := (mem_sortBySk _ _).mp he5
    obtain ⟨hpart, hseq⟩ := hrows q hq e he6
    rw [hpart] at hep
    subst hep
    have hoff : t'.offsets q = some A := by
      rw [ht', commit_offsets_offsets, hadv]
    rw [hoff, Option.getD_some] at hcond
    exact (skChars_lt_iff A e.sequence hA hseq).mp hcond

/-- A two-event, one-partition table used by the C2 witness. -/
def c2t : Table :=
  ⟨some ⟨"s", 1, 168, "c"⟩, fun _ => some 2,
   fun q => if q = 0 then
      [⟨"s", 0, 1, "k", "t", Json.null, 5⟩, ⟨"s", 0, 2, "k", "t", Json.null, 6⟩]
    else [],
   fun _ => some 0, true⟩

/-- Witness for C2: commit advance 2 on partition 0, then poll. -/
theorem C2_witness :
    lastOffsetFor [⟨0, 2⟩] 0 = some 2
    ∧ (2 : Nat) < 10 ^ 20
    ∧ (∀ q < (Stream.mk "s" 1 168 "c").partition_count, ∀ e ∈ c2t.partEvents q,
        e.partition = q ∧ e.sequence < 10 ^ 20)
    ∧ (∀ r, handle_poll (pollClientOf (commit_offsets c2t [⟨0, 2⟩]) "s" "sub") 10
          = .ok r →
        ∀ e ∈ r.events, e.partition = 0 → 2 < e.sequence) :=
  ⟨by decide, by decide, by decide,
   C2_commit_then_poll c2t "s" "sub" ⟨"s", 1, 168, "c"⟩ [⟨0, 2⟩] 0 2 10
     rfl rfl (by decide) (by decide) (by decide)⟩


/-! ## Claim C10 -/

theorem head?_some_mem {α : Type} (l : List α) (a : α) (h : l.head? = some a) :
    a ∈ l := by
  cases l with
  | nil => exact Option.noConfusion h
  | cons x xs =>
      simp only [List.head?_cons, Option.some.injEq] at h
      rw [← h]
      exact List.mem_cons_self _ _

theorem getLast?_take_one {α : Type} (l : List α) :
    (l.take 1).getLast? = l.head? := by
  cases l with
  | nil => rfl
  | cons x xs => simp

/-- The first event a poll would read past the committed offset of
partition `p`: head of the SK-ordered range query. -/
def firstUnread (t : Table) (p : Nat) : Option Event :=
  ((sortBySk (t.partEvents p)).filter
    (fun e => charsLt (skChars ((t.offsets p).getD 0)) (skChars e.sequence))).head?

/-- C10: poll with `limit = 0` is not rejected: `per_partition` is
`max(1, 0) = 1`, one event per partition is still read and its sequence
recorded as that partition's cursor advance, while truncation to 0 removes
every event from the response — so the returned cursor can advance past
events the caller never received. -/
theorem C10_poll_limit_zero (t : Table) (sid subid : String) (st : Stream)
    (hmeta : t.meta = some st)
    (hpc : 0 < st.partition_count)
    (hsub : t.subExists = true)
    (hrows : ∀ q < st.partition_count, ∀ e ∈ t.partEvents q,
        e.sequence < 10 ^ 20)
    (hoffs : ∀ q < st.partition_count, (t.offsets q).getD 0 < 10 ^ 20) :
    ∃ r, handle_poll (pollClientOf t sid subid) 0 = .ok r
      ∧ r.events = []
      ∧ r.cursorOffsets = (List.range st.partition_count).map (fun p =>
          match firstUnread t p with
          | some e => ⟨p, e.sequence⟩
          | none => ⟨p, (t.offsets p).getD 0⟩)
      ∧ (∀ p, p < st.partition_count → ∀ e, firstUnread t p = some e →
          (t.offsets p).getD 0 < e.sequence) := by
  have hs : (pollClientOf t sid subid).get_stream = .ok st := by
    show get_stream t sid = .ok st
    unfold get_stream
    rw [hmeta]
  have hb : (pollClientOf t sid subid).get_subscription = .ok () := by
    show get_subscription t subid = .ok ()
    unfold get_subscription
    simp [hsub]
  refine ⟨pollBody (pollClientOf t sid subid) st 0,
    handle_poll_ok_eq _ _ _ hs hb (by omega), rfl, ?_, ?_⟩
  · show ((List.range st.partition_count).map
        (pollPartition (pollClientOf t sid subid)
          (Nat.max (0 / st.partition_count) 1))).map Prod.fst = _
    rw [List.map_map]
    apply List.map_congr_left
    intro p _
    have hper : Nat.max (0 / st.partition_count) 1 = 1 := by
      rw [Nat.zero_div]
      decide
    rw [Function.comp_apply, hper, pollPartition_table]
    show (match (((sortBySk (t.partEvents p)).filter
            (fun e => charsLt (skChars ((t.offsets p).getD 0))
              (skChars e.sequence))).take 1).getLast? with
         | some last => (⟨p, last.sequence⟩ : PartitionOffset)
         | none => ⟨p, (t.offsets p).getD 0⟩) = _
    rw [getLast?_take_one]
    rfl
  · intro p hp e hfe
    have he1 := head?_some_mem _ _ hfe
    obtain ⟨he2, hcond⟩ := List.mem_filter.mp he1
    have he3 : e ∈ t.partEvents p := (mem_sortBySk _ _).mp he2
    exact (skChars_lt_iff _ _ (hoffs p hp) (hrows p hp e he3)).mp hcond

/-- One-event table used by the C10 witness: offset 0 committed, event
with sequence 1 present. -/
def c10t : Table :=
  ⟨some ⟨"s", 1, 168, "c"⟩, fun _ => some 1,
   fun q => if q = 0 then [⟨"s", 0, 1, "k", "t", Json.null, 5⟩] else [],
   fun _ => some 0, true⟩

/-- Witness for C10: the poll returns no events but a cursor advanced to
sequence 1. -/
theorem C10_witness :
    c10t.meta = some ⟨"s", 1, 168, "c"⟩
    ∧ (∃ r, handle_poll (pollClientOf c10t "s" "sub") 0 = .ok r
        ∧ r.events = []
        ∧ r.cursorOffsets = (List.range 1).map (fun p =>
            match firstUnread c10t p with
            | some e => ⟨p, e.sequence⟩
            | none => ⟨p, (c10t.offsets p).getD 0⟩)
        ∧ (∀ p, p < 1 → ∀ e, firstUnread c10t p = some e →
            (c10t.offsets p).getD 0 < e.sequence)) :=
  ⟨rfl, C10_poll_limit_zero c10t "s" "sub" ⟨"s", 1, 168, "c"⟩ rfl (by decide)
    rfl (by decide) (by decide)⟩

/-! ## Claim C9 -/

/-- Base table for the C9 counterexample: one committed offset 0, one
event with sequence 1. -/
def c9t : Table :=
  ⟨some ⟨"s", 1, 168, "c"⟩, fun _ => some 1,
   fun q => if q = 0 then [⟨"s", 0, 1, "k", "t", Json.null, 5⟩] else [],
   fun _ => some 0, true⟩

/-- Poll client whose offset reads fail with a store error. -/
def c9ClientErrOffset : PollClient :=
  { pollClientOf c9t "s" "sub" with
    get_offset := fun _ => .error (.Database "injected store failure") }

/-- Poll client whose event range reads fail with a store error. -/
def c9ClientErrRead : PollClient :=
  { pollClientOf c9t "s" "sub" with
    read_events := fun _ _ _ => .error (.Database "injected store failure") }

/-- Counterexample to C9 as stated: a store failure while reading a
partition's committed offset does not fail the poll — it completes
successfully, reading from offset 0 (and even returns the event at
sequence 1 as if nothing was committed); a store failure while
range-reading events completes as if the partition were empty. -/
theorem C9_counterexample :
    (∃ r, handle_poll c9ClientErrOffset 10 = .ok r
        ∧ r.events = [⟨"s", 0, 1, "k", "t", Json.null, 5⟩])
    ∧ handle_poll c9ClientErrOffset 10
        = handle_poll ({ c9ClientErrOffset with get_offset := fun _ => .ok 0 }) 10
    ∧ (∃ r, handle_poll c9ClientErrRead 10 = .ok r ∧ r.events = []) := by
  exact ⟨⟨_, rfl, rfl⟩, rfl, ⟨_, rfl, rfl⟩⟩

theorem pollBody_congr (c1 c2 : PollClient) (st : Stream) (limit : Nat)
    (h : ∀ per q, pollPartition c1 per q = pollPartition c2 per q) :
    pollBody c1 st limit = pollBody c2 st limit := by
  unfold pollBody
  have hmap : List.map (pollPartition c1 ((limit / st.partition_count).max 1))
        (List.range st.partition_count)
      = List.map (pollPartition c2 ((limit / st.partition_count).max 1))
        (List.range st.partition_count) :=
    List.map_congr_left (fun q _ => h _ q)
  dsimp only []
  rw [hmap]

/-- C9 amended: `get_stream` and `get_subscription` errors are surfaced by
poll, but a store failure reading a partition's committed offset is
treated as offset 0, and a store failure range-reading a partition's
events is treated as an empty partition — poll completes as if those
calls had succeeded with the defaults. -/
theorem C9_poll_swallows_store_errors (client : PollClient) (limit p : Nat)
    (e : Error) :
    (∀ er, client.get_stream = .error er → handle_poll client limit = .err er)
    ∧ (∀ st er, client.get_stream = .ok st →
        client.get_subscription = .error er →
        handle_poll client limit = .err er)
    ∧ handle_poll { client with get_offset := fun q =>
          if q = p then (.error e) else client.get_offset q } limit
      = handle_poll { client with get_offset := fun q =>
          if q = p then (.ok 0) else client.get_offset q } limit
    ∧ handle_poll { client with read_events := fun q off lim =>
          if q = p then (.error e) else client.read_events q off lim } limit
      = handle_poll { client with read_events := fun q off lim =>
          if q = p then (.ok []) else client.read_events q off lim } limit := by
  refine ⟨?_, ?_, ?_, ?_⟩
  · intro er h
    unfold handle_poll
    rw [h]
  · intro st er h1 h2
    unfold handle_poll
    rw [h1, h2]
  · have hpp : ∀ (gs : Except Error Stream) (gb : Except Error Unit) per q,
        pollPartition ⟨gs, gb, fun q =>
          if q = p then (.error e) else client.get_offset q,
          client.read_events⟩ per q
        = pollPartition ⟨gs, gb, fun q =>
            if q = p then (.ok 0) else client.get_offset q,
            client.read_events⟩ per q := by
      intro gs gb per q
      unfold pollPartition
      by_cases hq : q = p
      · simp [hq, Except.toOption]
      · simp [hq]
    unfold handle_poll
    cases hcs : client.get_stream with
    | error er => rfl
    | ok st =>
        cases hcb : client.get_subscription with
        | error er => rfl
        | ok u =>
            by_cases hpc : st.partition_count = 0
            · simp [hpc]
            · simp only [if_neg hpc]
              exact congrArg PollResult.ok
                (pollBody_congr _ _ st limit (hpp (.ok st) (.ok u)))
  · have hpp : ∀ (gs : Except Error Stream) (gb : Except Error Unit) per q,
        pollPartition ⟨gs, gb, client.get_offset, fun q off lim =>
          if q = p then (.error e) else client.read_events q off lim⟩ per q
        = pollPartition ⟨gs, gb, client.get_offset, fun q off lim =>
            if q = p then (.ok []) else client.read_events q off lim⟩ per q := by
      intro gs gb per q
      unfold pollPartition
      by_cases hq : q = p
      · simp [hq, Except.toOption]
      · simp [hq]
    unfold handle_poll
    cases hcs : client.get_stream with
    | error er => rfl
    | ok st =>
        cases hcb : client.get_subscription with
        | error er => rfl
        | ok u =>
            by_cases hpc : st.partition_count = 0
            · simp [hpc]
            · simp only [if_neg hpc]
              exact congrArg PollResult.ok
                (pollBody_congr _ _ st limit (hpp (.ok st) (.ok u)))

/-- Witness for C9's amended theorem: a `get_stream` failure is surfaced. -/
theorem C9_witness :
    handle_poll { pollClientOf c9t "s" "sub" with
        get_stream := .error (.Database "down") } 10
      = .err (.Database "down") :=
  (C9_poll_swallows_store_errors
    { pollClientOf c9t "s" "sub" with get_stream := .error (.Database "down") }
    10 0 (.Database "down")).1 (.Database "down") rfl


/-! ## Publish-path lemmas -/

theorem publishLoop_ok (pr : Partitioner) (sid : String) (now : Nat)
    (evs : List PublishEvent) :
    ∀ (t : Table) (acc : List PublishedEvent),
      0 < pr.partition_count →
      (∀ p < pr.partition_count, (t.counters p).isSome) →
      ∃ t' res, publishLoop t pr sid now evs acc = .ok t' res
        ∧ res.map (fun pe => pe.key)
            = acc.reverse.map (fun pe => pe.key) ++ evs.map (fun e => e.key) := by
  induction evs with
  | nil =>
      intro t acc _ _
      exact ⟨t, acc.reverse, rfl, by simp⟩
  | cons e rest ih =>
      intro t acc hpc hctr
      have hplt : pr.partition e.key < pr.partition_count := Nat.mod_lt _ hpc
      obtain ⟨v, hv⟩ : ∃ v, t.counters (pr.partition e.key) = some v :=
        Option.isSome_iff_exists.mp (hctr _ hplt)
      have hinc : increment_sequence t (pr.partition e.key)
          = .ok ({ t with counters := fun q =>
              if q = pr.partition e.key then some (v + 1) else t.counters q },
             v + 1) := by
        unfold increment_sequence
        rw [hv]
      have hstep : publishLoop t pr sid now (e :: rest) acc
          = publishLoop
              { t with
                counters := fun q =>
                  if q = pr.partition e.key then some (v + 1)
                  else t.counters q,
                partEvents := fun q =>
                  if q = pr.partition e.key then
                    t.partEvents q ++ [⟨sid, pr.partition e.key, v + 1, e.key,
                      e.event_type, e.data, now⟩]
                  else t.partEvents q }
              pr sid now rest
              (⟨sid, pr.partition e.key, v + 1, e.key, now⟩ :: acc) := by
        conv_lhs => rw [publishLoop]
        dsimp only []
        rw [hinc]
      rw [hstep]
      have hctr2 : ∀ p < pr.partition_count,
          (({ t with
              counters := fun q =>
                if q = pr.partition e.key then some (v + 1) else t.counters q,
              partEvents := fun q =>
                if q = pr.partition e.key then
                  t.partEvents q ++ [⟨sid, pr.partition e.key, v + 1, e.key,
                    e.event_type, e.data, now⟩]
                else t.partEvents q } : Table).counters p).isSome := by
        intro p hp
        show (if p = pr.partition e.key then some (v + 1)
              else t.counters p).isSome = true
        by_cases hq : p = pr.partition e.key
        · rw [if_pos hq]
          rfl
        · rw [if_neg hq]
          exact hctr p hp
      obtain ⟨t', res, hrun, hkeys⟩ :=
        ih _ (⟨sid, pr.partition e.key, v + 1, e.key, now⟩ :: acc) hpc hctr2
      refine ⟨t', res, hrun, ?_⟩
      rw [hkeys]
      simp

theorem publishLoop_ne_panic (pr : Partitioner) (sid : String) (now : Nat)
    (evs : List PublishEvent) :
    ∀ (t : Table) (acc : List PublishedEvent),
      publishLoop t pr sid now evs acc ≠ .panic := by
  induction evs with
  | nil => intro t acc h; exact PubResult.noConfusion h
  | cons e rest ih =>
      intro t acc h
      unfold publishLoop at h
      dsimp only [] at h
      cases hinc : increment_sequence t (pr.partition e.key) with
      | error er =>
          rw [hinc] at h
          exact PubResult.noConfusion h
      | ok pair =>
          rw [hinc] at h
          exact ih _ _ h

/-! ## Claim C4 -/

/-- C4 as stated fails: no per-event validation exists.  Table used by the
counterexample: one partition, counter initialised to 0, stream present. -/
def c4t : Table :=
  ⟨some ⟨"s", 1, 168, "c"⟩, fun _ => some 0, fun _ => [], fun _ => none, true⟩

set_option maxRecDepth 200000 in
/-- Counterexample to C4: an event whose `key` and `event_type` are both
empty is accepted by publish and written as an event row (no `Validation`
error is produced). -/
theorem C4_counterexample :
    ∃ t', handle_publish c4t "s" [⟨"", "", Json.null⟩] 7
        = .ok t' [⟨"s", 0, 1, "", 7⟩]
      ∧ t'.partEvents 0 = [⟨"s", 0, 1, "", "", Json.null, 7⟩] := by
  exact ⟨_, rfl, rfl⟩

/-- C4 amended: publish fails with `StreamNotFound` when the stream is
missing and with a 400 `validation_error` when the batch is empty, but
performs no per-event validation — with the stream and counters present
every batch succeeds and a reference is returned for every event,
including events with empty `key` or `event_type`. -/
theorem C4_publish_checks (t : Table) (sid : String)
    (evs : List PublishEvent) (now : Nat) :
    (evs = [] → handle_publish t sid evs now = .err t (.Validation "No events provided"))
    ∧ (t.meta = none → evs ≠ [] →
        handle_publish t sid evs now = .err t (.StreamNotFound sid))
    ∧ (∀ st, t.meta = some st → 0 < st.partition_count → evs ≠ [] →
        (∀ p < st.partition_count, (t.counters p).isSome) →
        ∃ t' res, handle_publish t sid evs now = .ok t' res
          ∧ res.map (fun pe => pe.key) = evs.map (fun e => e.key)) := by
  refine ⟨?_, ?_, ?_⟩
  · intro he
    subst he
    rfl
  · intro hm hne
    unfold handle_publish
    rw [if_neg (by simpa using hne)]
    unfold publish_events get_stream
    rw [hm]
  · intro st hm hpc hne hctr
    unfold handle_publish
    rw [if_neg (by simpa using hne)]
    unfold publish_events get_stream
    have hnew : Partitioner.new st.partition_count = some ⟨st.partition_count⟩ := by
      unfold Partitioner.new
      rw [if_pos hpc]
    simp only [hm, hnew]
    obtain ⟨t', res, hrun, hkeys⟩ :=
      publishLoop_ok ⟨st.partition_count⟩ sid now evs t [] hpc hctr
    refine ⟨t', res, hrun, ?_⟩
    simpa using hkeys

/-- Witness for C4's amended theorem: a two-event batch (one event with an
empty key) publishes both events. -/
theorem C4_witness :
    ∃ t' res, handle_publish c4t "s" [⟨"", "t1", Json.null⟩, ⟨"k", "t2", Json.null⟩] 7
        = .ok t' res
      ∧ res.map (fun pe => pe.key) = ["", "k"] :=
  (C4_publish_checks c4t "s" [⟨"", "t1", Json.null⟩, ⟨"k", "t2", Json.null⟩] 7).2.2
    ⟨"s", 1, 168, "c"⟩ rfl (by decide) (List.cons_ne_nil _ _) (by decide)

/-! ## Claim C5 -/

/-- The empty table used by the C5 counterexample. -/
def c5t : Table := ⟨none, fun _ => none, fun _ => [], fun _ => none, false⟩

/-- Counterexample to C5: `create_stream` accepts `partition_count = 0`,
`retention_hours = 0` and an empty `stream_id` without any `Validation`
error, and a publish to the resulting stream panics (the `assert!` in
`Partitioner::new`). -/
theorem C5_counterexample :
    ∃ t' s, create_stream c5t ⟨"", 0, 0⟩ "c" = .ok (t', s)
      ∧ s.partition_count = 0
      ∧ handle_publish t' "" [⟨"k", "t", Json.null⟩] 7 = .panic := by
  exact ⟨_, _, rfl, rfl, rfl⟩

/-- C5 amended: `create_stream` performs no validation (its only error is
`StreamAlreadyExists`), and publish panics exactly when the batch is
non-empty and the stored stream's `partition_count` is 0; for every
positive stored partition count every failure is a typed `Error`. -/
theorem C5_no_validation_panic_iff (t : Table) (req : CreateStreamRequest)
    (nowc : String) (sid : String) (evs : List PublishEvent) (now : Nat) :
    (∀ e, create_stream t req nowc = .error e → e = .StreamAlreadyExists req.stream_id)
    ∧ (handle_publish t sid evs now = .panic ↔
        evs ≠ [] ∧ ∃ st, t.meta = some st ∧ st.partition_count = 0) := by
  constructor
  · intro e h
    unfold create_stream at h
    split at h
    · exact (Except.error.injEq _ _).mp h |>.symm
    · exact Except.noConfusion h
  · unfold handle_publish
    by_cases he : evs.isEmpty
    · rw [if_pos he]
      constructor
      · intro h
        exact absurd h (by exact fun h => PubResult.noConfusion h)
      · rintro ⟨hne, _⟩
        exact absurd (List.isEmpty_iff.mp he) hne
    · rw [if_neg he]
      unfold publish_events get_stream
      cases hm : t.meta with
      | none =>
          dsimp only []
          constructor
          · intro h
            exact PubResult.noConfusion h
          · rintro ⟨_, st, hst, _⟩
            exact Option.noConfusion hst
      | some st =>
          dsimp only []
          by_cases hpc : st.partition_count = 0
          · have hnone : Partitioner.new st.partition_count = none := by
              unfold Partitioner.new
              rw [if_neg (by omega)]
            rw [hnone]
            constructor
            · intro _
              exact ⟨by simpa using he, st, rfl, hpc⟩
            · intro _
              rfl
          · have hsome : Partitioner.new st.partition_count
                = some ⟨st.partition_count⟩ := by
              unfold Partitioner.new
              rw [if_pos (by omega)]
            rw [hsome]
            constructor
            · intro h
              exact absurd h (publishLoop_ne_panic _ _ _ _ _ _)
            · rintro ⟨_, st', hst', hpc'⟩
              have : st = st' := (Option.some.injEq _ _).mp hst'
              subst this
              exact absurd hpc' hpc

/-- Witness for C5's amended theorem: publish on a stream stored with
`partition_count = 0` panics. -/
theorem C5_witness :
    handle_publish ⟨some ⟨"s", 0, 168, "c"⟩, fun _ => some 0, fun _ => [],
        fun _ => none, true⟩ "s" [⟨"k", "t", Json.null⟩] 7 = .panic :=
  (C5_no_validation_panic_iff _ ⟨"s", 0, 168⟩ "c" "s" [⟨"k", "t", Json.null⟩] 7).2.mpr
    ⟨List.cons_ne_nil _ _, ⟨"s", 0, 168, "c"⟩, rfl, rfl⟩


/-! ## Claim C7 -/

/-- Table for the C7 counterexample: the stream exists but the
subscription does not (`subExists = false`, no offset rows). -/
def c7t : Table :=
  ⟨some ⟨"s", 1, 168, "c"⟩, fun _ => some 0, fun _ => [], fun _ => none, false⟩

set_option maxRecDepth 100000 in
/-- Counterexample to C7: commit with an unknown subscription does not
fail with `SubscriptionNotFound` — it succeeds (HTTP 200, `success =
true`) and writes the offset row. -/
theorem C7_counterexample :
    c7t.subExists = false
    ∧ ∃ t', handle_commit c7t (encodeCursor [⟨0, 5⟩]) = .ok t' true
        ∧ t'.offsets 0 = some 5 := by
  exact ⟨rfl, _, rfl, rfl⟩

/-- C7 amended: `handle_commit` performs no subscription lookup at all:
for every table — whether or not the subscription exists — a cursor that
decodes writes all its offset rows and returns success, and every commit
failure is an `InvalidCursor` error (never `SubscriptionNotFound`). -/
theorem C7_commit_skips_subscription_check (t : Table) (cursor : String) :
    (∀ offs, decode_cursor cursor = .ok offs →
        handle_commit t cursor = .ok (commit_offsets t offs) true)
    ∧ (∀ t' e, handle_commit t cursor = .err t' e →
        ∃ msg, e = .InvalidCursor msg) := by
  constructor
  · intro offs h
    unfold handle_commit
    rw [h]
  · intro t' e h
    unfold handle_commit at h
    cases hd : decode_cursor cursor with
    | ok offs =>
        rw [hd] at h
        dsimp only [] at h
        exact CommitResult.noConfusion h
    | error er =>
        rw [hd] at h
        dsimp only [] at h
        have he : er = e := (CommitResult.err.inj h).2
        subst he
        unfold decode_cursor at hd
        cases hb : b64Decode cursor.data with
        | none =>
            rw [hb] at hd
            dsimp only [] at hd
            exact ⟨"Invalid base64", (Except.error.inj hd).symm⟩
        | some bytes =>
            rw [hb] at hd
            dsimp only [] at hd
            cases hu : utf8DecodeChars bytes with
            | none =>
                rw [hu] at hd
                dsimp only [] at hd
                exact ⟨"Invalid UTF-8", (Except.error.inj hd).symm⟩
            | some cs =>
                rw [hu] at hd
                dsimp only [] at hd
                cases hj : (parseJsonChars cs).bind cursorStateOfJson with
                | none =>
                    rw [hj] at hd
                    dsimp only [] at hd
                    exact ⟨"Invalid JSON", (Except.error.inj hd).symm⟩
                | some offs =>
                    rw [hj] at hd
                    dsimp only [] at hd
                    exact Except.noConfusion hd

set_option maxRecDepth 100000 in
/-- Witness for C7's amended theorem at a concrete decodable cursor. -/
theorem C7_witness :
    handle_commit c7t (encodeCursor [⟨1, 9⟩])
      = .ok (commit_offsets c7t [⟨1, 9⟩]) true :=
  (C7_commit_skips_subscription_check c7t (encodeCursor [⟨1, 9⟩])).1 [⟨1, 9⟩] rfl


/-! ## Compactor lemmas -/

theorem startsWithChars_append (p x : List Char) :
    startsWithChars p (p ++ x) = true := by
  induction p with
  | nil => rfl
  | cons c cs ih => simp [startsWithChars, ih]

/-- The sequence stored in the compacted projection at `(sid, key)`
(0 when the row is absent). -/
def seqAt (T : CompactTable) (sid key : String) : Nat :=
  match T sid key with
  | some c => c.sequence
  | none => 0

theorem parse_record_eventImage (sid : String) (p seq : Nat) (key et : String)
    (data : Json) (ts now : String) (hseq : seq < 2 ^ 64) (hp : p < 2 ^ 32) :
    parse_record ⟨"INSERT", eventImage sid p seq key et data ts⟩ now
      = some ⟨sid, key, et, seq, p, extractData (some (attrOfJson data)), ts⟩ := by
  have h64 : parseU64 (natRepr seq) = some seq := parseUInt_natRepr _ _ hseq
  have h32 : parseU32 (natRepr p) = some p := parseUInt_natRepr _ _ hp
  simp [parse_record, eventImage, imgGet, attrString, attrNumberStr, h64, h32,
    skChars, startsWithChars_append]
  exact startsWithChars_append "SEQ#".data (List.map digitChar (padLeft20 seq))

theorem process_record_parse_none (T : CompactTable) (r : ChangeRecord)
    (now : String) (h : parse_record r now = none) :
    process_record T r now = T := by
  unfold process_record
  rw [h]

theorem process_record_parse_some (T : CompactTable) (r : ChangeRecord)
    (now : String) (pr : ParsedRecord) (h : parse_record r now = some pr) :
    process_record T r now
      = match T pr.stream_id pr.key with
        | some existing =>
            if existing.sequence ≥ pr.sequence then T
            else put_compacted T (compactedOf pr)
        | none => put_compacted T (compactedOf pr) := by
  unfold process_record
  rw [h]

theorem put_compacted_self (T : CompactTable) (c : CompactedEvent) :
    put_compacted T c c.stream_id c.key = some c := by
  simp [put_compacted]

theorem process_record_seqAt_mono (T : CompactTable) (r : ChangeRecord)
    (now sid key : String) :
    seqAt T sid key ≤ seqAt (process_record T r now) sid key := by
  cases hp : parse_record r now with
  | none => rw [process_record_parse_none T r now hp]
  | some pr =>
      rw [process_record_parse_some T r now pr hp]
      cases hT : T pr.stream_id pr.key with
      | some existing =>
          dsimp only []
          by_cases hge : existing.sequence ≥ pr.sequence
          · rw [if_pos hge]
          · rw [if_neg hge]
            by_cases hpair : sid = pr.stream_id ∧ key = pr.key
            · obtain ⟨h1, h2⟩ := hpair
              subst h1
              subst h2
              simp [seqAt, put_compacted, compactedOf, hT]
              omega
            · simp [seqAt, put_compacted, compactedOf, hpair]
      | none =>
          dsimp only []
          by_cases hpair : sid = pr.stream_id ∧ key = pr.key
          · obtain ⟨h1, h2⟩ := hpair
            subst h1
            subst h2
            simp [seqAt, put_compacted, compactedOf, hT]
          · simp [seqAt, put_compacted, compactedOf, hpair]

theorem process_record_idem (T : CompactTable) (r : ChangeRecord)
    (now : String) :
    process_record (process_record T r now) r now = process_record T r now := by
  cases hp : parse_record r now with
  | none =>
      rw [process_record_parse_none _ r now hp, process_record_parse_none _ r now hp]
  | some pr =>
      cases hT : T pr.stream_id pr.key with
      | some existing =>
          by_cases hge : existing.sequence ≥ pr.sequence
          · have hPT : process_record T r now = T := by
              rw [process_record_parse_some T r now pr hp, hT]
              dsimp only []
              rw [if_pos hge]
            rw [hPT, hPT]
          · have hPT : process_record T r now = put_compacted T (compactedOf pr) := by
              rw [process_record_parse_some T r now pr hp, hT]
              dsimp only []
              rw [if_neg hge]
            rw [hPT, process_record_parse_some _ r now pr hp]
            have hlook : put_compacted T (compactedOf pr) pr.stream_id pr.key
                = some (compactedOf pr) := by
              simp [put_compacted, compactedOf]
            rw [hlook]
            simp [compactedOf]
      | none =>
          have hPT : process_record T r now = put_compacted T (compactedOf pr) := by
            rw [process_record_parse_some T r now pr hp, hT]
          rw [hPT, process_record_parse_some _ r now pr hp]
          have hlook : put_compacted T (compactedOf pr) pr.stream_id pr.key
              = some (compactedOf pr) := by
            simp [put_compacted, compactedOf]
          rw [hlook]
          simp [compactedOf]

theorem compactor_handler_seqAt_mono (rs : List ChangeRecord) :
    ∀ (T : CompactTable) (now sid key : String),
      seqAt T sid key ≤ seqAt (compactor_handler T rs now) sid key := by
  induction rs with
  | nil => intro T now sid key; exact le_refl _
  | cons r rest ih =>
      intro T now sid key
      have h1 := process_record_seqAt_mono T r now sid key
      have h2 := ih (process_record T r now) now sid key
      exact le_trans h1 h2

/-! ## Claim C3 -/

/-- C3: for a change record carrying an event with sequence `seq` for
`(sid, key)`: if the compacted row exists with a sequence `≥ seq`,
processing leaves the projection unchanged; otherwise the row is written
with sequence `seq`.  Processing is idempotent under replay, and the
stored sequence is non-decreasing across any sequence of processed
records. -/
theorem C3_compactor_monotone (T : CompactTable) (now : String)
    (sid : String) (p seq : Nat) (key et : String) (data : Json) (ts : String)
    (hseq : seq < 2 ^ 64) (hp : p < 2 ^ 32) :
    parse_record ⟨"INSERT", eventImage sid p seq key et data ts⟩ now
      = some ⟨sid, key, et, seq, p, extractData (some (attrOfJson data)), ts⟩
    ∧ (∀ c, T sid key = some c → seq ≤ c.sequence →
        process_record T ⟨"INSERT", eventImage sid p seq key et data ts⟩ now = T)
    ∧ (T sid key = none ∨ (∃ c, T sid key = some c ∧ c.sequence < seq) →
        process_record T ⟨"INSERT", eventImage sid p seq key et data ts⟩ now sid key
          = some ⟨sid, key, et, extractData (some (attrOfJson data)), seq, p, ts⟩)
    ∧ (∀ (S : CompactTable) (r : ChangeRecord) (now' : String),
        process_record (process_record S r now') r now' = process_record S r now')
    ∧ (∀ (S : CompactTable) (rs : List ChangeRecord) (now' sid' key' : String),
        seqAt S sid' key' ≤ seqAt (compactor_handler S rs now') sid' key') := by
  have hparse := parse_record_eventImage sid p seq key et data ts now hseq hp
  refine ⟨hparse, ?_, ?_, fun S r now' => process_record_idem S r now',
    fun S rs now' sid' key' => compactor_handler_seqAt_mono rs S now' sid' key'⟩
  · intro c hc hle
    rw [process_record_parse_some T _ now _ hparse]
    rw [hc]
    dsimp only []
    rw [if_pos (show _ ≥ _ by exact hle)]
  · intro hcase
    rw [process_record_parse_some T _ now _ hparse]
    rcases hcase with hnone | ⟨c, hc, hlt⟩
    · rw [hnone]
      dsimp only []
      exact put_compacted_self T _
    · rw [hc]
      dsimp only []
      rw [if_neg (by exact not_le.mpr hlt)]
      exact put_compacted_self T _

/-- Witness for C3: processing a fresh event record writes the compacted
row at its `(stream_id, key)`. -/
theorem C3_witness :
    (2 : Nat) < 2 ^ 64 ∧ (0 : Nat) < 2 ^ 32
    ∧ process_record (fun _ _ => none)
        ⟨"INSERT", eventImage "s" 0 2 "x" "t" Json.null "ts"⟩ "now" "s" "x"
      = some ⟨"s", "x", "t", extractData (some (attrOfJson Json.null)), 2, 0, "ts"⟩ :=
  ⟨by decide, by decide,
   (C3_compactor_monotone (fun _ _ => none) "now" "s" 0 2 "x" "t" Json.null "ts"
     (by decide) (by decide)).2.2.1 (Or.inl rfl)⟩

/-! ## Claim C6 -/

/-- The change record of an event for key `x` on a one-partition stream,
with payload `{"v": v}` stored (by serde_dynamo) as a map attribute. -/
def c6rec (seq : Nat) (v : Int) : ChangeRecord :=
  ⟨"INSERT", eventImage "s" 0 seq "x" "counter.set"
    (Json.obj [("v", Json.num v)]) "2024-01-01T00:00:00Z"⟩

/-- Feeding the records with sequences 2, 1, 2 (data `{"v":1}` at 1 and
`{"v":2}` at 2) to the compactor: the final compacted row has sequence 2
— but its `data` is the empty object `{}`, not `{"v":2}`: the compactor
maps every map-typed `data` attribute to `json!({})`
(`compactor/src/main.rs` line 93), losing the payload. -/
theorem C6_compactor_loses_map_data :
    compactor_handler (fun _ _ => none) [c6rec 2 2, c6rec 1 1, c6rec 2 2] "now" "s" "x"
      = some ⟨"s", "x", "counter.set", Json.obj [], 2, 0, "2024-01-01T00:00:00Z"⟩
    ∧ Json.obj [] ≠ Json.obj [("v", Json.num 2)] := by
  constructor
  · rfl
  · intro h
    simp at h


/-! ## Cursor round-trip: serialization-side lemmas (claim C8) -/

/-- The parsed JSON document of one `PartitionOffset`. -/
def poJson (po : PartitionOffset) : Json :=
  .obj [("partition", .num po.partition), ("offset", .num po.offset)]

/-- The parsed JSON document of a `CursorState`. -/
def cursorJsonValue (offs : List PartitionOffset) : Json :=
  .obj [("offsets", .arr (offs.map poJson))]

theorem strData_append (s t : String) : (s ++ t).data = s.data ++ t.data := rfl

theorem isDigitCh_iff (c : Char) :
    isDigitCh c = true ↔ 48 ≤ c.toNat ∧ c.toNat ≤ 57 := by
  simp [isDigitCh]

theorem ascii_natRepr (n : Nat) : ∀ c ∈ (natRepr n).data, c.toNat < 128 := by
  intro c hc
  have := (isDigitCh_iff c).mp (natRepr_all_digit n c hc)
  omega

theorem natRepr_digitsVal (n : Nat) : digitsVal (natRepr n).data = n := by
  rw [natRepr_data, digitsVal_map_digitChar _ (digitsOf_lt_ten n),
    valOfDigits_digitsOf]

theorem takeWhile_append_of (p : Char → Bool) (xs : List Char) (y : Char)
    (ys : List Char) (hx : ∀ x ∈ xs, p x = true) (hy : p y = false) :
    (xs ++ y :: ys).takeWhile p = xs ∧ (xs ++ y :: ys).dropWhile p = y :: ys := by
  induction xs with
  | nil => simp [List.takeWhile_cons, List.dropWhile_cons, hy]
  | cons x xs ih =>
      have hpx : p x = true := hx x (List.mem_cons_self _ _)
      have hxs : ∀ x ∈ xs, p x = true := fun a ha => hx a (List.mem_cons_of_mem _ ha)
      obtain ⟨h1, h2⟩ := ih hxs
      constructor
      · rw [List.cons_append, List.takeWhile_cons, hpx]
        simp [h1]
      · rw [List.cons_append, List.dropWhile_cons, hpx]
        simpa using h2

theorem getLast?_cons_of_ne_nil {α : Type} (a : α) (l : List α) (h : l ≠ []) :
    (a :: l).getLast? = l.getLast? := by
  cases l with
  | nil => exact absurd rfl h
  | cons b bs => rfl

theorem toDigitsRev_getLast_ne_zero (n : Nat) (hn : 1 ≤ n) :
    ∀ d, (toDigitsRev n).getLast? = some d → d ≠ 0 := by
  induction n using Nat.strong_induction_on with
  | _ n ih =>
      intro d hd
      rw [toDigitsRev_eq] at hd
      by_cases h : n < 10
      · rw [if_pos h] at hd
        simp at hd
        omega
      · rw [if_neg h] at hd
        rw [getLast?_cons_of_ne_nil _ _ (toDigitsRev_ne_nil _)] at hd
        exact ih (n / 10) (Nat.div_lt_self (by omega) (by omega)) (by omega) d hd

theorem natRepr_no_leading_zero (n : Nat) :
    ¬(1 < (natRepr n).data.length ∧ (natRepr n).data.head? = some '0') := by
  rintro ⟨hlen, hhead⟩
  by_cases h : n < 10
  · rw [natRepr_data] at hlen
    have h1 : digitsOf n = [n] := by
      unfold digitsOf
      rw [toDigitsRev_eq, if_pos h]
      rfl
    rw [h1] at hlen
    simp at hlen
  · rw [natRepr_data, List.head?_map] at hhead
    obtain ⟨d, hd, hdc⟩ := Option.map_eq_some'.mp hhead
    have hgl : (digitsOf n).head? = (toDigitsRev n).getLast? := by
      unfold digitsOf
      exact List.head?_reverse _
    have hne := toDigitsRev_getLast_ne_zero n (by omega) d (hgl ▸ hd)
    have hmem : d ∈ digitsOf n := List.mem_of_mem_head? hd
    have hd10 := digitsOf_lt_ten n d hmem
    have hv : (digitChar d).toNat = Char.toNat '0' := by rw [hdc]
    rw [digitChar_toNat d hd10] at hv
    have : Char.toNat '0' = 48 := by decide
    omega


theorem parseNatPartChars_natRepr (n : Nat) (c : Char) (rest : List Char)
    (hc1 : isDigitCh c = false) (hc2 : ¬(c = '.' ∨ c = 'e' ∨ c = 'E')) :
    parseNatPartChars ((natRepr n).data ++ c :: rest) = some (n, c :: rest) := by
  obtain ⟨htk, hdr⟩ := takeWhile_append_of isDigitCh (natRepr n).data c rest
    (natRepr_all_digit n) hc1
  unfold parseNatPartChars
  simp only [htk, hdr]
  rw [if_neg (by simp [natRepr_ne_nil n])]
  rw [if_neg (natRepr_no_leading_zero n)]
  rw [if_neg hc2, natRepr_digitsVal]

theorem parseNumberChars_natRepr (n : Nat) (c : Char) (rest : List Char)
    (hc1 : isDigitCh c = false) (hc2 : ¬(c = '.' ∨ c = 'e' ∨ c = 'E')) :
    parseNumberChars ((natRepr n).data ++ c :: rest)
      = some (.num (n : Int), c :: rest) := by
  obtain ⟨d, ds, hds⟩ : ∃ d ds, (natRepr n).data = d :: ds := by
    cases h : (natRepr n).data with
    | nil => exact absurd h (natRepr_ne_nil n)
    | cons d ds => exact ⟨d, ds, rfl⟩
  have hd := (isDigitCh_iff d).mp
    (natRepr_all_digit n d (by rw [hds]; exact List.mem_cons_self _ _))
  rw [hds, List.cons_append]
  simp only [parseNumberChars]
  rw [if_neg (show ¬(d = '-') from fun hcd => by
    subst hcd; exact absurd hd.1 (by decide))]
  rw [← List.cons_append, ← hds, parseNatPartChars_natRepr n c rest hc1 hc2]

theorem isWsCh_eq_false (c : Char) (h : 48 ≤ c.toNat) : isWsCh c = false := by
  unfold isWsCh
  simp only [Bool.or_eq_false_iff, beq_eq_false_iff_ne, ne_eq]
  refine ⟨⟨⟨?_, ?_⟩, ?_⟩, ?_⟩ <;> (intro hc; subst hc; exact absurd h (by decide))

theorem skipWs_of_head (c : Char) (rest : List Char) (h : isWsCh c = false) :
    skipWs (c :: rest) = c :: rest := by
  simp [skipWs, List.dropWhile_cons, h]

theorem parseValue_digit_head (f : Nat) (c : Char) (rest : List Char)
    (h1 : 48 ≤ c.toNat) (h2 : c.toNat ≤ 57) :
    parseValue (f + 1) (c :: rest) = parseNumberChars (c :: rest) := by
  have hws := isWsCh_eq_false c h1
  conv_lhs => rw [parseValue]
  rw [skipWs_of_head c rest hws]
  dsimp only []
  rw [if_neg (fun hc => by subst hc; exact absurd h2 (by decide))]
  rw [if_neg (fun hc => by subst hc; exact absurd h2 (by decide))]
  rw [if_neg (fun hc => by subst hc; exact absurd h1 (by decide))]
  rw [if_neg (fun hc => by subst hc; exact absurd h2 (by decide))]
  rw [if_neg (fun hc => by subst hc; exact absurd h2 (by decide))]
  rw [if_neg (fun hc => by subst hc; exact absurd h2 (by decide))]

theorem parseValue_natRepr (f : Nat) (n : Nat) (c : Char) (rest : List Char)
    (hc1 : isDigitCh c = false) (hc2 : ¬(c = '.' ∨ c = 'e' ∨ c = 'E')) :
    parseValue (f + 1) ((natRepr n).data ++ c :: rest)
      = some (.num (n : Int), c :: rest) := by
  obtain ⟨d, ds, hds⟩ : ∃ d ds, (natRepr n).data = d :: ds := by
    cases h : (natRepr n).data with
    | nil => exact absurd h (natRepr_ne_nil n)
    | cons d ds => exact ⟨d, ds, rfl⟩
  have hd := (isDigitCh_iff d).mp
    (natRepr_all_digit n d (by rw [hds]; exact List.mem_cons_self _ _))
  rw [hds, List.cons_append, parseValue_digit_head f d (ds ++ c :: rest) hd.1 hd.2,
    ← List.cons_append, ← hds]
  exact parseNumberChars_natRepr n c rest hc1 hc2


theorem ascii_of_all (cs : List Char)
    (hall : cs.all (fun c => decide (c.toNat < 128)) = true) :
    ∀ c ∈ cs, c.toNat < 128 := fun c hc =>
  of_decide_eq_true (List.all_eq_true.mp hall c hc)

theorem ascii_cursorItemJson (po : PartitionOffset) :
    ∀ c ∈ (cursorItemJson po).data, c.toNat < 128 := by
  intro c hc
  unfold cursorItemJson at hc
  simp only [strData_append, List.mem_append] at hc
  rcases hc with ((((h | h) | h) | h) | h)
  · exact ascii_of_all _ (by decide) c h
  · exact ascii_natRepr _ c h
  · exact ascii_of_all _ (by decide) c h
  · exact ascii_natRepr _ c h
  · exact ascii_of_all _ (by decide) c h

theorem ascii_cursorItemsJson (offs : List PartitionOffset) :
    ∀ c ∈ (cursorItemsJson offs).data, c.toNat < 128 := by
  induction offs with
  | nil => exact ascii_of_all _ (by decide)
  | cons po rest ih =>
      cases rest with
      | nil => exact fun c hc => ascii_cursorItemJson po c hc
      | cons po2 rest2 =>
          intro c hc
          have hshape : cursorItemsJson (po :: po2 :: rest2)
              = cursorItemJson po ++ "," ++ cursorItemsJson (po2 :: rest2) := rfl
          rw [hshape] at hc
          simp only [strData_append, List.mem_append] at hc
          rcases hc with ((h | h) | h)
          · exact ascii_cursorItemJson po c h
          · exact ascii_of_all _ (by decide) c h
          · exact ih c h

theorem ascii_cursorJson (offs : List PartitionOffset) :
    ∀ c ∈ (cursorJson offs).data, c.toNat < 128 := by
  intro c hc
  unfold cursorJson at hc
  simp only [strData_append, List.mem_append] at hc
  rcases hc with ((h | h) | h)
  · exact ascii_of_all _ (by decide) c h
  · exact ascii_cursorItemsJson offs c h
  · exact ascii_of_all _ (by decide) c h

/-- Continuation of `parseMembers` after one key has been read and the
colon consumed: feed the value-parse result through the rest of the body. -/
def membersK1 (key : String) (fuel : Nat) :
    Option (Json × List Char) → Option (Json × List Char)
  | none => none
  | some (v, r3) =>
      match skipWs r3 with
      | ',' :: r4 =>
          match parseMembers fuel r4 with
          | some (.obj fields, r5) => some (.obj ((key, v) :: fields), r5)
          | _ => none
      | '}' :: r4 => some (.obj [(key, v)], r4)
      | _ => none

/-- Continuation of `parseMembers` after a key and value followed by a
comma: feed the recursive member-parse result through the rest. -/
def membersK2 (key : String) (v : Json) :
    Option (Json × List Char) → Option (Json × List Char)
  | some (.obj fields, r5) => some (.obj ((key, v) :: fields), r5)
  | _ => none

/-- Continuation of `parseElems` after the first element has been parsed
and a comma consumed. -/
def elemsK (v : Json) :
    Option (Json × List Char) → Option (Json × List Char)
  | some (.arr elems, r3) => some (.arr (v :: elems), r3)
  | _ => none

theorem parseMembers_offset (f : Nat) (o : Nat) (rest : List Char) :
    parseMembers (f + 2)
      ('"' :: 'o' :: 'f' :: 'f' :: 's' :: 'e' :: 't' :: '"' :: ':' ::
        ((natRepr o).data ++ '}' :: rest))
      = some (.obj [("offset", .num (o : Int))], rest) := by
  show membersK1 "offset" (f + 1)
    (parseValue (f + 1) ((natRepr o).data ++ '}' :: rest)) = _
  rw [parseValue_natRepr f o '}' rest (by decide) (by decide)]
  rfl

theorem parseMembers_partition (f : Nat) (p o : Nat) (rest : List Char) :
    parseMembers (f + 3)
      ('"' :: 'p' :: 'a' :: 'r' :: 't' :: 'i' :: 't' :: 'i' :: 'o' :: 'n' :: '"' :: ':' ::
        ((natRepr p).data ++ ',' :: '"' :: 'o' :: 'f' :: 'f' :: 's' :: 'e' :: 't' :: '"' :: ':' ::
        ((natRepr o).data ++ '}' :: rest)))
      = some (.obj [("partition", .num (p : Int)), ("offset", .num (o : Int))], rest) := by
  show membersK1 "partition" (f + 2)
    (parseValue (f + 2)
      ((natRepr p).data ++ ',' :: '"' :: 'o' :: 'f' :: 'f' :: 's' :: 'e' :: 't' :: '"' :: ':' ::
        ((natRepr o).data ++ '}' :: rest))) = _
  rw [parseValue_natRepr (f + 1) p ',' _ (by decide) (by decide)]
  show membersK2 "partition" (.num (p : Int))
    (parseMembers (f + 2)
      ('"' :: 'o' :: 'f' :: 'f' :: 's' :: 'e' :: 't' :: '"' :: ':' ::
        ((natRepr o).data ++ '}' :: rest))) = _
  rw [parseMembers_offset f o rest]
  rfl


theorem cursorItemJson_data (po : PartitionOffset) (rest : List Char) :
    (cursorItemJson po).data ++ rest
      = '{' :: '"' :: 'p' :: 'a' :: 'r' :: 't' :: 'i' :: 't' :: 'i' :: 'o' :: 'n' :: '"' :: ':' ::
        ((natRepr po.partition).data ++ ',' :: '"' :: 'o' :: 'f' :: 'f' :: 's' :: 'e' :: 't' :: '"' :: ':' ::
        ((natRepr po.offset).data ++ '}' :: rest)) := by
  show (("\x7b\"partition\":" ++ natRepr po.partition ++ ",\"offset\":"
      ++ natRepr po.offset ++ "\x7d").data) ++ rest = _
  rw [strData_append, strData_append, strData_append, strData_append]
  have h1 : ("\x7b\"partition\":" : String).data
      = ['{', '"', 'p', 'a', 'r', 't', 'i', 't', 'i', 'o', 'n', '"', ':'] := rfl
  have h2 : (",\"offset\":" : String).data
      = [',', '"', 'o', 'f', 'f', 's', 'e', 't', '"', ':'] := rfl
  have h3 : ("\x7d" : String).data = ['}'] := rfl
  rw [h1, h2, h3]
  simp

theorem parseValue_item (f : Nat) (po : PartitionOffset) (rest : List Char) :
    parseValue (f + 4) ((cursorItemJson po).data ++ rest) = some (poJson po, rest) := by
  rw [cursorItemJson_data po rest]
  show parseMembers (f + 3)
    ('"' :: 'p' :: 'a' :: 'r' :: 't' :: 'i' :: 't' :: 'i' :: 'o' :: 'n' :: '"' :: ':' ::
      ((natRepr po.partition).data ++ ',' :: '"' :: 'o' :: 'f' :: 'f' :: 's' :: 'e' :: 't' :: '"' :: ':' ::
      ((natRepr po.offset).data ++ '}' :: rest))) = _
  exact parseMembers_partition f po.partition po.offset rest


theorem parseElems_items (offs : List PartitionOffset) :
    ∀ (po : PartitionOffset) (f : Nat) (rest : List Char),
    parseElems (f + offs.length + 5) ((cursorItemsJson (po :: offs)).data ++ ']' :: rest)
      = some (.arr ((po :: offs).map poJson), rest) := by
  induction offs with
  | nil =>
      intro po f rest
      have hf : f + List.length ([] : List PartitionOffset) + 5 = (f + 4) + 1 := by
        simp only [List.length_nil]
      rw [hf]
      have h0 : (cursorItemsJson [po]).data ++ ']' :: rest
          = (cursorItemJson po).data ++ ']' :: rest := rfl
      rw [h0]
      conv_lhs => rw [parseElems]
      rw [parseValue_item f po (']' :: rest)]
      rfl
  | cons po2 offs ih =>
      intro po f rest
      have h0 : (cursorItemsJson (po :: po2 :: offs)).data ++ ']' :: rest
          = (cursorItemJson po).data ++ ',' ::
            ((cursorItemsJson (po2 :: offs)).data ++ ']' :: rest) := by
        show ((cursorItemJson po ++ "," ++ cursorItemsJson (po2 :: offs)).data)
            ++ ']' :: rest = _
        rw [strData_append, strData_append]
        have hc : ("," : String).data = [','] := rfl
        rw [hc]
        simp
      rw [h0]
      have hf : f + List.length (po2 :: offs) + 5 = (f + offs.length + 5) + 1 := by
        simp only [List.length_cons]
        omega
      rw [hf]
      conv_lhs => rw [parseElems]
      have hf2 : f + offs.length + 5 = (f + offs.length + 1) + 4 := by omega
      rw [hf2]
      rw [parseValue_item (f + offs.length + 1) po _]
      show elemsK (poJson po)
        (parseElems ((f + offs.length + 1) + 4)
          ((cursorItemsJson (po2 :: offs)).data ++ ']' :: rest)) = _
      have hf3 : (f + offs.length + 1) + 4 = f + offs.length + 5 := by omega
      rw [hf3, ih po2 f rest]
      rfl


theorem parseValue_cursorJson (offs : List PartitionOffset) (f : Nat) :
    parseValue (f + offs.length + 7) (cursorJson offs).data
      = some (cursorJsonValue offs, []) := by
  cases offs with
  | nil => rfl
  | cons po offs' =>
      have h0 : (cursorJson (po :: offs')).data
          = '{' :: '"' :: 'o' :: 'f' :: 'f' :: 's' :: 'e' :: 't' :: 's' :: '"' :: ':' :: '[' ::
            ((cursorItemsJson (po :: offs')).data ++ ']' :: '}' :: []) := by
        show ("\x7b\"offsets\":[" ++ cursorItemsJson (po :: offs') ++ "]\x7d").data = _
        rw [strData_append, strData_append]
        have h1 : ("\x7b\"offsets\":[" : String).data
            = ['{', '"', 'o', 'f', 'f', 's', 'e', 't', 's', '"', ':', '['] := rfl
        have h2 : ("]\x7d" : String).data = [']', '}'] := rfl
        rw [h1, h2]
        simp
      rw [h0]
      obtain ⟨tl, htl⟩ : ∃ tl, (cursorItemsJson (po :: offs')).data = '{' :: tl := by
        cases offs' with
        | nil => exact ⟨_, rfl⟩
        | cons po2 rest2 => exact ⟨_, rfl⟩
      have hv : parseValue (f + (po :: offs').length + 5)
          ('[' :: ((cursorItemsJson (po :: offs')).data ++ ']' :: '}' :: []))
          = some (.arr ((po :: offs').map poJson), ['}']) := by
        rw [show f + (po :: offs').length + 5 = (f + (po :: offs').length + 4) + 1 from by omega]
        conv_lhs => rw [parseValue]
        rw [htl]
        show parseElems (f + (po :: offs').length + 4)
          (('{' :: tl) ++ ']' :: '}' :: []) = _
        rw [← htl]
        rw [show f + (po :: offs').length + 4 = f + offs'.length + 5 from by
          simp only [List.length_cons]; omega]
        exact parseElems_items offs' po f ('}' :: [])
      show membersK1 "offsets" (f + (po :: offs').length + 5)
        (parseValue (f + (po :: offs').length + 5)
          ('[' :: ((cursorItemsJson (po :: offs')).data ++ ']' :: '}' :: []))) = _
      rw [hv]
      rfl


theorem length_cursorItemsJson_ge (offs : List PartitionOffset) :
    offs.length ≤ (cursorItemsJson offs).data.length := by
  induction offs with
  | nil => exact Nat.zero_le _
  | cons po rest ih =>
      cases rest with
      | nil =>
          obtain ⟨tl, htl⟩ : ∃ tl, (cursorItemsJson [po]).data = '{' :: tl := ⟨_, rfl⟩
          rw [htl]
          simp
      | cons po2 rest2 =>
          have hshape : cursorItemsJson (po :: po2 :: rest2)
              = cursorItemJson po ++ "," ++ cursorItemsJson (po2 :: rest2) := rfl
          rw [hshape, strData_append, strData_append]
          simp only [List.length_append, List.length_cons]
          have h2 := ih
          simp only [List.length_cons] at h2 ⊢
          omega

theorem length_cursorJson (offs : List PartitionOffset) :
    offs.length + 6 ≤ (cursorJson offs).data.length := by
  unfold cursorJson
  rw [strData_append, strData_append]
  simp only [List.length_append]
  have hA : ("\x7b\"offsets\":[" : String).data.length = 12 := rfl
  have hB : ("]\x7d" : String).data.length = 2 := rfl
  rw [hA, hB]
  have := length_cursorItemsJson_ge offs
  omega

theorem parseJsonChars_cursorJson (offs : List PartitionOffset) :
    parseJsonChars (cursorJson offs).data = some (cursorJsonValue offs) := by
  unfold parseJsonChars
  have hlen := length_cursorJson offs
  rw [show (cursorJson offs).data.length + 1
      = ((cursorJson offs).data.length + 1 - offs.length - 7) + offs.length + 7 from by
    omega]
  rw [parseValue_cursorJson offs _]
  rfl

theorem partitionOffsetOfJson_poJson (po : PartitionOffset)
    (h1 : po.partition < 4294967296) (h2 : po.offset < 18446744073709551616) :
    partitionOffsetOfJson (poJson po) = some po := by
  have h0 : partitionOffsetOfJson (poJson po)
      = if 0 ≤ (po.partition : Int) ∧ (po.partition : Int) < 4294967296
          ∧ 0 ≤ (po.offset : Int) ∧ (po.offset : Int) < 18446744073709551616 then
          some ⟨(po.partition : Int).toNat, (po.offset : Int).toNat⟩
        else none := rfl
  rw [h0, if_pos (by omega)]
  simp

theorem mapM_partitionOffsetOfJson (offs : List PartitionOffset)
    (hb : ∀ po ∈ offs,
      po.partition < 4294967296 ∧ po.offset < 18446744073709551616) :
    (offs.map poJson).mapM partitionOffsetOfJson = some offs := by
  induction offs with
  | nil => rfl
  | cons po rest ih =>
      rw [List.map_cons, List.mapM_cons]
      rw [partitionOffsetOfJson_poJson po (hb po (List.mem_cons_self _ _)).1
        (hb po (List.mem_cons_self _ _)).2]
      rw [ih (fun q hq => hb q (List.mem_cons_of_mem _ hq))]
      rfl

theorem cursorStateOfJson_value (offs : List PartitionOffset)
    (hb : ∀ po ∈ offs,
      po.partition < 4294967296 ∧ po.offset < 18446744073709551616) :
    cursorStateOfJson (cursorJsonValue offs) = some offs := by
  have h0 : cursorStateOfJson (cursorJsonValue offs)
      = (offs.map poJson).mapM partitionOffsetOfJson := rfl
  rw [h0]
  exact mapM_partitionOffsetOfJson offs hb


theorem decode_encode_cursor (offs : List PartitionOffset)
    (hb : ∀ po ∈ offs,
      po.partition < 4294967296 ∧ po.offset < 18446744073709551616) :
    decode_cursor (encodeCursor offs) = .ok offs := by
  have hbytes : utf8Bytes (cursorJson offs)
      = (cursorJson offs).data.map Char.toNat := by
    unfold utf8Bytes
    exact utf8Bytes_ascii (cursorJson offs).data (ascii_cursorJson offs)
  have hb64 : b64Decode (encodeCursor offs).data
      = some ((cursorJson offs).data.map Char.toNat) := by
    show b64Decode (b64Encode (utf8Bytes (cursorJson offs))) = _
    rw [hbytes]
    refine b64Decode_b64Encode _ ?_
    intro b hbmem
    simp only [List.mem_map] at hbmem
    obtain ⟨c, hc, rfl⟩ := hbmem
    have := ascii_cursorJson offs c hc
    omega
  unfold decode_cursor
  rw [hb64]
  dsimp only []
  rw [utf8DecodeChars_ascii (cursorJson offs).data (ascii_cursorJson offs)]
  dsimp only []
  rw [parseJsonChars_cursorJson offs]
  dsimp only [Option.bind]
  rw [cursorStateOfJson_value offs hb]

/-- **C8.**  Round trip between poll's cursor encoding and commit's cursor
decoding: for any offset list (with the fields in `u32`/`u64` range, as
they are in the Rust code), the cursor `handle_poll` builds —
base64url-without-padding over the serde_json text
`\x7b"offsets":[\x7b"partition":N,"offset":M\x7d,...]\x7d` — decodes back
to exactly the same offsets via `handle_commit`'s decoding chain
(base64url → UTF-8 → JSON → `CursorState`); the JSON text parses to an
object whose `offsets` key holds the array of `\x7bpartition, offset\x7d`
pairs; and submitting the cursor to `handle_commit` succeeds, committing
precisely those offsets. -/
theorem C8_cursor_roundtrip (offs : List PartitionOffset)
    (hb : ∀ po ∈ offs,
      po.partition < 4294967296 ∧ po.offset < 18446744073709551616) :
    decode_cursor (encodeCursor offs) = .ok offs
    ∧ parseJson (cursorJson offs) = some (cursorJsonValue offs)
    ∧ ∀ t : Table, handle_commit t (encodeCursor offs)
        = .ok (commit_offsets t offs) true := by
  have hdec := decode_encode_cursor offs hb
  refine ⟨hdec, parseJsonChars_cursorJson offs, fun t => ?_⟩
  unfold handle_commit
  rw [hdec]

/-- Witness for C8 at a concrete cursor state with two partitions. -/
theorem C8_witness :
    (∀ po ∈ [(⟨0, 5⟩ : PartitionOffset), ⟨1, 7⟩],
      po.partition < 4294967296 ∧ po.offset < 18446744073709551616)
    ∧ (decode_cursor (encodeCursor [⟨0, 5⟩, ⟨1, 7⟩]) = .ok [⟨0, 5⟩, ⟨1, 7⟩]
      ∧ parseJson (cursorJson [⟨0, 5⟩, ⟨1, 7⟩])
          = some (cursorJsonValue [⟨0, 5⟩, ⟨1, 7⟩])
      ∧ ∀ t : Table, handle_commit t (encodeCursor [⟨0, 5⟩, ⟨1, 7⟩])
          = .ok (commit_offsets t [⟨0, 5⟩, ⟨1, 7⟩]) true) :=
  ⟨by decide, C8_cursor_roundtrip [⟨0, 5⟩, ⟨1, 7⟩] (by decide)⟩

end EventLedger
